import Mathlib

/-!
Verification development for the `yields` package (file `yields/yields_base.py`).

The development shallowly embeds the code of `yields_base.py`:

* Python dicts keyed by strings become insertion-ordered association lists
  (`List (String × α)`); assignment `d[k] = v` updates the entry in place when
  the key is present and appends otherwise, exactly like a Python dict.
* Floating point numbers become exact rationals (`ℚ`).  `np.log10` has no
  exact rational counterpart, so the positive-argument logarithm is an
  explicit parameter `L : ℚ → ℚ` of every operation that takes logs; the
  special handling of zero (`log10 0 = -inf`, replaced by `-6`) is embedded
  explicitly, since for nonnegative doubles `np.log10 x` is `-inf` exactly
  when `x = 0`.
* Python exceptions become `Except`/`Option PyError` results.  Operations that
  in the source mutate `self` return a pair of the object state at the moment
  the exception is raised (if any) together with the error, so that claims
  about partial mutation are expressible.
-/

/-- The Python exception kinds raised by `yields_base.py`. -/
inductive PyError : Type where
  | valueError : String → PyError
  | zeroDivisionError : PyError
  | attributeError : String → PyError
  | keyError : String → PyError
deriving DecidableEq, Repr

/-- First-match lookup in an association list: Python `d[k]` /
`getattr(obj, k)`, with `none` for a missing key. -/
def dlookup {α : Type} : List (String × α) → String → Option α
  | [], _ => none
  | p :: d, k => if p.1 = k then some p.2 else dlookup d k

/-- Key membership, Python `k in d`. -/
def dmem {α : Type} (d : List (String × α)) (k : String) : Bool :=
  (dlookup d k).isSome

/-- Python dict assignment `d[k] = v` (also `setattr(obj, k, v)`):
replace the value at an existing key, else append a new entry. -/
def dictSet {α : Type} (d : List (String × α)) (k : String) (v : α) :
    List (String × α) :=
  if dmem d k then d.map (fun p => if p.1 = k then (k, v) else p)
  else d ++ [(k, v)]

/-- The keys of a dict, in order. -/
def dkeys {α : Type} (d : List (String × α)) : List String :=
  d.map Prod.fst

/-- Whether a key names an isotope (`"Fe_56"`) rather than an element
aggregate (`"Fe"`): the Python test is `"_" in isotope`. -/
def hasUnderscore (k : String) : Bool :=
  decide ('_' ∈ k.toList)

/-- The element symbol of an isotope key: Python `isotope.split("_")[0]`.
(The source unpacks `split("_")` into exactly two parts; every key it is
applied to contains exactly one underscore, so the part before the first
underscore is that first component.) -/
def symOf (k : String) : String :=
  String.mk (k.toList.takeWhile (fun c => c != '_'))

/-- Substring test, Python `a in b` on strings. -/
def isSubstr (a b : List Char) : Bool :=
  (List.range (b.length + 1)).any (fun i => a.isPrefixOf (b.drop i))

/-- The membership test of `Yields._sum_elements`: a dict key belongs to the
running total for element `e` when the string `e + "_"` occurs in it
(Python `element + "_" in key`). -/
def matchesElem (e k : String) : Bool :=
  isSubstr (e.toList ++ ['_']) k.toList

/-- Well-formedness of a set of dict keys, implicit in the data the loaders
produce: every isotope key contains exactly one underscore, and no element
symbol is a proper suffix of another (true of chemical symbols, whose first
letter is the only capital).  Under this condition the substring test of
`_sum_elements` selects exactly the isotopes of the element. -/
def keysWF (ks : List String) : Bool :=
  ks.all (fun k => !hasUnderscore k || (k.toList.count '_' == 1)) &&
    ks.all (fun k => ks.all (fun k' =>
      !hasUnderscore k || !hasUnderscore k' ||
        !((symOf k).toList.isSuffixOf (symOf k').toList) ||
          (symOf k == symOf k')))

/-- `_parse_nomoto_individual_element` from `yields_base.py`: labels are in
the format NumberName, like `9Be` or `22Na`; `p` and `d` denote H_1 and H_2.
`none` models the `IndexError` Python raises on a label of length < 2 that
is neither `p` nor `d` (`name[1]` out of range). -/
def parse_nomoto_individual_element (name : String) : Option String :=
  if name = "p" then some ("H_1")
  else if name = "d" then some ("H_2")
  else
    match name.toList with
    | c0 :: c1 :: rest =>
      if c1.isAlpha then some (String.mk ((c1 :: rest) ++ '_' :: [c0]))
      else some (String.mk (rest ++ '_' :: [c0, c1]))
    | _ => none

/-- An argument to `np.array(value, ndmin=1)`: a scalar or a 1-d sequence. -/
inductive NpInput : Type where
  | scalar : ℚ → NpInput
  | arr : List ℚ → NpInput

/-- The numpy shape of an `NpInput`: `()` for a scalar, `(n,)` for an array. -/
def npShape : NpInput → List Nat
  | NpInput.scalar _ => []
  | NpInput.arr xs => [xs.length]

/-- `np.array(value, ndmin=1)`: a scalar becomes a 1-element array. -/
def np_array_ndmin1 : NpInput → List ℚ
  | NpInput.scalar x => [x]
  | NpInput.arr xs => xs

/-- The elementwise action of `_metallicity_log`: `log10` of the value with
`-6` substituted at zero.  `L` stands for `np.log10` on positive rationals
(`np.log10 x` is `-inf` exactly when `x = 0` for nonnegative doubles, so the
`isneginf` replacement in the source is a substitution at input zero; for a
negative input `np.log10` yields NaN, not `-inf`, modelled as the junk value
`L x`). -/
def metallicity_log_entry (L : ℚ → ℚ) (z : ℚ) : ℚ :=
  if z = 0 then -6 else L z

/-- `_metallicity_log` from `yields_base.py`: builds `np.array(value, ndmin=1)`
and maps the log (with the `-6` floor) over it, so the result is always an
array of dimension at least 1. -/
def metallicity_log (L : ℚ → ℚ) (v : NpInput) : List ℚ :=
  (np_array_ndmin1 v).map (metallicity_log_entry L)

/-- The piecewise-linear interpolation of `scipy.interpolate.interp1d`
(kind="linear") on points sorted by abscissa, for queries `q ≥` the first
abscissa: walk the segments; past the last point return the last ordinate
(which is the upper `fill_value` used by `_interpolation_wrapper`). -/
def interpPiece : List (ℚ × ℚ) → ℚ → ℚ
  | [], _ => 0
  | [p], _ => p.2
  | p1 :: p2 :: rest, q =>
    if q ≤ p2.1 then p1.2 + (p2.2 - p1.2) * (q - p1.1) / (p2.1 - p1.1)
    else interpPiece (p2 :: rest) q

/-- `scipy.interpolate.interp1d(xs, ys, kind="linear", bounds_error=False,
fill_value=(ys[0], ys[-1]))` as used by `_interpolation_wrapper`: below the
grid return `ys[0]`, above it `ys[-1]`, inside it the linear interpolant.
(`make_test` builds interp1d without fill values, which instead raises on an
out-of-range query; every use in this development queries it inside the
grid, where the two coincide.) -/
def interp1d (xs ys : List ℚ) (q : ℚ) : ℚ :=
  match xs, ys with
  | x0 :: _, y0 :: _ => if q < x0 then y0 else interpPiece (xs.zip ys) q
  | _, _ => 0

/-- `_interpolation_wrapper` from `yields_base.py`: log-transform the
metallicity grid (with the `-6` floor at zero) and interpolate linearly over
it with edge clamping. -/
def interpolation_wrapper (L : ℚ → ℚ) (metallicities abundances : List ℚ) :
    ℚ → ℚ :=
  fun q => interp1d (metallicities.map (metallicity_log_entry L)) abundances q

/-- The state of a `Yields` object.  `abundances_interp` and
`mass_fractions_log_z` hold interpolation objects, embedded as functions of
log-metallicity; `attrs` models the attributes injected by `setattr` in
`_set_members` (the dynamic attribute view of the abundances). -/
structure Yields : Type where
  abundances : List (String × ℚ)
  abundances_interp : List (String × (ℚ → ℚ))
  metallicity_points : List ℚ
  has_normalization : Bool
  total_metals : ℚ
  metallicity : ℚ
  mass_fractions_log_z : List (String × (ℚ → ℚ))
  attrs : List (String × ℚ)

/-- `self.abundances[key] *= scale_factor` applied to every entry. -/
def scaleD (s : ℚ) (d : List (String × ℚ)) : List (String × ℚ) :=
  d.map (fun p => (p.1, p.2 * s))

/-- The per-element total computed inside `_sum_elements`:
`np.sum([value for key, value in self.abundances.items() if element + "_" in key])`. -/
def sum_match (d : List (String × ℚ)) (e : String) : ℚ :=
  ((d.filter (fun p => matchesElem e p.1)).map Prod.snd).sum

/-- One iteration of the `_sum_elements` loop on the live dict: skip a key
without an underscore, otherwise store under the element symbol the sum of
all entries matching `element + "_"`. -/
def sumElStep (acc : List (String × ℚ)) (k : String) : List (String × ℚ) :=
  if hasUnderscore k then dictSet acc (symOf k) (sum_match acc (symOf k))
  else acc

/-- `Yields._sum_elements`: iterate over a snapshot of the keys
(`self.abundances.copy()`), applying `sumElStep` to the live dict while the
key snapshot stays fixed. -/
def sum_elements (d : List (String × ℚ)) : List (String × ℚ) :=
  (dkeys d).foldl sumElStep d

/-- The `setattr` loop of `Yields._set_members`, writing every abundance
entry into the attribute view. -/
def set_members_attrs (a d : List (String × ℚ)) : List (String × ℚ) :=
  d.foldl (fun a' p => dictSet a' p.1 p.2) a

/-- `Yields._set_members`: recompute the element aggregates, then expose
every entry as an attribute. -/
def set_members (y : Yields) : Yields :=
  let d := sum_elements y.abundances
  { y with abundances := d, attrs := set_members_attrs y.attrs d }

/-- `Yields.metals_sum`: the sum of the element aggregates other than `H`
and `He` (entries whose key has no underscore). -/
def metals_sum (d : List (String × ℚ)) : ℚ :=
  ((d.filter (fun p => !hasUnderscore p.1 && p.1 != "H" && p.1 != "He")).map
    Prod.snd).sum

/-- `Yields.normalize_metals`: rescale every abundance entry by
`total_metals / metals_sum()`, recompute members, store the target and mark
normalization active.  A zero metal sum raises `ZeroDivisionError` before
any mutation (the scale factor is computed first), so the returned state is
the input state. -/
def normalize_metals (y : Yields) (total_metals : ℚ) :
    Yields × Option PyError :=
  let total_before := metals_sum y.abundances
  if total_before = 0 then (y, some PyError.zeroDivisionError)
  else
    let scale_factor := total_metals / total_before
    let y1 := set_members { y with abundances := scaleD scale_factor y.abundances }
    ({ y1 with total_metals := total_metals, has_normalization := true }, none)

/-- The interpolator-evaluation loop of `set_metallicity`: for every isotope
in `_abundances_interp` store its interpolated value at the query log
metallicity into the abundance dict. -/
def interp_eval_fold (q : ℚ) (I : List (String × (ℚ → ℚ)))
    (d : List (String × ℚ)) : List (String × ℚ) :=
  I.foldl (fun d' p => dictSet d' p.1 (p.2 q)) d

/-- `Yields.set_metallicity`: validate `0 ≤ z ≤ 1` (raising `ValueError`
before any mutation), evaluate every interpolator at `log(z)`, recompute
members, re-apply the sticky normalization if active, and store the
metallicity.  The unused `initial` parameter of the source is omitted: the
body never reads it.  On an error the first component is the object state at
the moment the exception is raised. -/
def set_metallicity (L : ℚ → ℚ) (y : Yields) (metallicity : ℚ) :
    Yields × Option PyError :=
  if ¬ (0 ≤ metallicity ∧ metallicity ≤ 1) then
    (y, some (PyError.valueError "Metallicity must be between zero and one."))
  else
    let met_log := metallicity_log_entry L metallicity
    let ab := interp_eval_fold met_log y.abundances_interp y.abundances
    let y1 := set_members { y with abundances := ab }
    if y1.has_normalization then
      match normalize_metals y1 y1.total_metals with
      | (y2, some e) => (y2, some e)
      | (y2, none) => ({ y2 with metallicity := metallicity }, none)
    else ({ y1 with metallicity := metallicity }, none)

/-- A sequence of `set_metallicity` calls, stopping at the first error. -/
def set_metallicity_list (L : ℚ → ℚ) : Yields → List ℚ → Yields × Option PyError
  | y, [] => (y, none)
  | y, z :: zs =>
    match set_metallicity L y z with
    | (y', none) => set_metallicity_list L y' zs
    | (y', some e) => (y', some e)

/-- `defaultdict(list)` append: `temp[k].append(v)`. -/
def dAppend (d : List (String × List ℚ)) (k : String) (v : ℚ) :
    List (String × List ℚ) :=
  if dmem d k then d.map (fun p => if p.1 = k then (p.1, p.2 ++ [v]) else p)
  else d ++ [(k, [v])]

/-- The inner loop of `Yields._create_mass_fractions` at one grid point:
append `abundances[isotope] / metals_sum()` to the per-isotope fraction
lists. -/
def frac_fold (tot : ℚ) (ab : List (String × ℚ))
    (temp : List (String × List ℚ)) : List (String × List ℚ) :=
  ab.foldl (fun t p => dAppend t p.1 (p.2 / tot)) temp

/-- The grid loop of `Yields._create_mass_fractions`: for every native
metallicity point, set the model there and append
`abundances[isotope] / metals_sum()` for every isotope.  A zero metal sum
raises `ZeroDivisionError`; any exception aborts construction. -/
def create_mass_fractions_loop (L : ℚ → ℚ) :
    List ℚ → Yields → List (String × List ℚ) →
      Except PyError (Yields × List (String × List ℚ))
  | [], y, temp => Except.ok (y, temp)
  | z :: zs, y, temp =>
    match set_metallicity L y z with
    | (_, some e) => Except.error e
    | (y1, none) =>
      let tot := metals_sum y1.abundances
      if tot = 0 then Except.error PyError.zeroDivisionError
      else create_mass_fractions_loop L zs y1 (frac_fold tot y1.abundances temp)

/-- `Yields._create_mass_fractions`: remember the working metallicity, build
one interpolator per isotope from the per-grid-point fractions, store the
index, and restore the working metallicity. -/
def create_mass_fractions (L : ℚ → ℚ) (y : Yields) : Except PyError Yields :=
  let initial_z := y.metallicity
  match create_mass_fractions_loop L y.metallicity_points y [] with
  | Except.error e => Except.error e
  | Except.ok (y1, temp) =>
    let mf := temp.map
      (fun p => (p.1, interpolation_wrapper L y1.metallicity_points p.2))
    match set_metallicity L { y1 with mass_fractions_log_z := mf } initial_z with
    | (_, some e) => Except.error e
    | (y2, none) => Except.ok y2

/-- `Yields.__init__` after the model loader has filled
`_abundances_interp` and `metallicity_points`: clear normalization, set the
metallicity to zero, record the initial metal sum as the default target, and
build the mass-fraction index.  An exception aborts construction. -/
def mkYields (L : ℚ → ℚ) (interps : List (String × (ℚ → ℚ)))
    (points : List ℚ) : Except PyError Yields :=
  let y0 : Yields :=
    { abundances := [], abundances_interp := interps,
      metallicity_points := points, has_normalization := false,
      total_metals := 0, metallicity := 0, mass_fractions_log_z := [],
      attrs := [] }
  match set_metallicity L y0 0 with
  | (_, some e) => Except.error e
  | (y1, none) =>
    create_mass_fractions L { y1 with total_metals := metals_sum y1.abundances }

/-- Attribute-style abundance access `model.<name>`: the reflective lookup
installed by `_set_members`, raising `AttributeError` for a name that was
never set. -/
def getattr_abundance (y : Yields) (name : String) : Except PyError ℚ :=
  match dlookup y.attrs name with
  | some v => Except.ok v
  | none => Except.error (PyError.attributeError name)

/-- `Yields.mass_fraction`: log-transform the metallicity, then evaluate the
mass-fraction interpolator for the isotope; a missing isotope raises
`KeyError`. -/
def mass_fraction (L : ℚ → ℚ) (y : Yields) (isotope : String)
    (metallicity : ℚ) : Except PyError ℚ :=
  let log_z := metallicity_log_entry L metallicity
  match dlookup y.mass_fractions_log_z isotope with
  | none => Except.error (PyError.keyError isotope)
  | some f => Except.ok (f log_z)

/-- `Yields.make_test`: the interpolators of the `"test"` model set, on the
two-point metallicity grid `[0, 1]` (`interp1d` over its log image). -/
def make_test (L : ℚ → ℚ) : List (String × (ℚ → ℚ)) :=
  let metallicities := ([0, 1] : List ℚ).map (metallicity_log_entry L)
  [("H_1", fun q => interp1d metallicities [1, 2] q),
   ("He_2", fun q => interp1d metallicities [2, 3] q),
   ("Li_3", fun q => interp1d metallicities [3, 4] q),
   ("Be_4", fun q => interp1d metallicities [4, 5] q),
   ("B_5", fun q => interp1d metallicities [5, 6] q),
   ("C_6", fun q => interp1d metallicities [6, 7] q),
   ("N_7", fun q => interp1d metallicities [7, 8] q),
   ("O_8", fun q => interp1d metallicities [8, 9] q),
   ("F_9", fun q => interp1d metallicities [9, 10] q),
   ("Na_10", fun q => interp1d metallicities [10, 11] q)]

/-- The claim-side element aggregate: the sum of `abundances[E_A]` over the
isotope entries whose symbol is exactly `E`. -/
def elemSumSpec (d : List (String × ℚ)) (e : String) : ℚ :=
  ((d.filter (fun p => hasUnderscore p.1 && (symOf p.1 == e))).map
    Prod.snd).sum

/-- The element-aggregate consistency invariant of claim C2: every element
symbol occurring in some isotope key is present and equals the sum of its
isotopes. -/
def ElemConsistent (d : List (String × ℚ)) : Prop :=
  ∀ k, k ∈ dkeys d → hasUnderscore k = true →
    dlookup d (symOf k) = some (elemSumSpec d (symOf k))

/-- Element-aggregate consistency in the exact terms of the code: the entry
stored for each isotope's symbol is the `_sum_elements` substring-matched
total.  (`ElemConsistent` is the claim-side counterpart; the two coincide
for well-formed key sets.) -/
def CodeConsistent (d : List (String × ℚ)) : Prop :=
  ∀ k, k ∈ dkeys d → hasUnderscore k = true →
    dlookup d (symOf k) = some (sum_match d (symOf k))

/-- The state `normalize_metals` produces on success: every entry scaled by
`target / metals_sum()`, members recomputed, target stored, flag set. -/
def normalized_state (y : Yields) (T : ℚ) : Yields :=
  let y1 := set_members
    { y with abundances := scaleD (T / metals_sum y.abundances) y.abundances }
  { y1 with total_metals := T, has_normalization := true }

/-- The state of a `Yields` object after the interpolation-and-members part
of `set_metallicity` (before the optional re-normalization and before the
metallicity attribute is stored). -/
def interpolated_state (L : ℚ → ℚ) (y : Yields) (z : ℚ) : Yields :=
  let ab := interp_eval_fold (metallicity_log_entry L z) y.abundances_interp
    y.abundances
  set_members { y with abundances := ab }

/-- The state invariant maintained by the normalized regime of claim C1:
normalization is active with sticky target `T`, the abundance keys are
distinct, and the element aggregates are in the fixed point of
`_sum_elements` (as they are after every `_set_members` call). -/
def NormInv (T : ℚ) (y : Yields) : Prop :=
  y.has_normalization = true ∧ y.total_metals = T ∧
    (dkeys y.abundances).Nodup ∧ sum_elements y.abundances = y.abundances

/-- The attribute-view consistency of claim C10: every abundance entry is
exposed as an equal attribute. -/
def AttrView (y : Yields) : Prop :=
  ∀ k v, dlookup y.abundances k = some v → dlookup y.attrs k = some v

/-- A key the model can produce: an isotope key of the interpolator
dictionary built by the loader, or the element symbol of one. -/
def fromModel (I : List String) (k : String) : Prop :=
  k ∈ I ∨ ∃ k2 ∈ I, symOf k2 = k

/-- Key-provenance invariant used for claim C6: every key of the abundance
mapping, the attribute view and the mass-fraction index is one the model can
produce. -/
def ModelKeys (y : Yields) : Prop :=
  (∀ k ∈ dkeys y.abundances, fromModel (dkeys y.abundances_interp) k) ∧
  (∀ k ∈ dkeys y.attrs, fromModel (dkeys y.abundances_interp) k) ∧
  (∀ k ∈ dkeys y.mass_fractions_log_z, fromModel (dkeys y.abundances_interp) k)

/-- A computable stand-in for `np.log10` on positive rationals, agreeing
with the true base-10 logarithm at every point the concrete test model
queries it: `log10 1 = 0` and `log10 (1/1000) = -3`. -/
def log10_test : ℚ → ℚ :=
  fun x => if x = 1 / 1000 then -3 else 0

/-- An arbitrary fallback state (construction of the test model never takes
this branch). -/
def yields_default : Yields :=
  { abundances := [], abundances_interp := [], metallicity_points := [],
    has_normalization := false, total_metals := 0, metallicity := 0,
    mass_fractions_log_z := [], attrs := [] }

/-- Whether a construction attempt succeeded. -/
def exceptOk (e : Except PyError Yields) : Bool :=
  match e with
  | Except.ok _ => true
  | Except.error _ => false

/-- The constructed object of a successful construction attempt. -/
def exceptGet (e : Except PyError Yields) : Yields :=
  match e with
  | Except.ok y => y
  | Except.error _ => yields_default

/-- The `Yields("test")` object: the model built by `make_test` run through
the constructor. -/
def test_model : Yields :=
  exceptGet (mkYields log10_test (make_test log10_test) [0, 1])

/-- The test model after `set_metallicity(0)`. -/
def test_model_z0 : Yields :=
  (set_metallicity log10_test test_model 0).1

/-- The test model after `set_metallicity(1)`. -/
def test_model_z1 : Yields :=
  (set_metallicity log10_test test_model 1).1

/-- The test model after `set_metallicity(1e-3)`. -/
def test_model_zmid : Yields :=
  (set_metallicity log10_test test_model (1 / 1000)).1

/-- The test model after `normalize_metals(7)`. -/
def test_model_norm : Yields :=
  (normalize_metals test_model 7).1

/-- The normalized test model after two further metallicity changes. -/
def test_model_norm_seq : Yields :=
  (set_metallicity_list log10_test test_model_norm [1, 1 / 2]).1

/-- The normalized test model after one more metallicity change. -/
def test_model_norm_final : Yields :=
  (set_metallicity log10_test test_model_norm_seq 0).1

@[simp] theorem dkeys_nil {α : Type} : dkeys ([] : List (String × α)) = [] :=
  rfl

@[simp] theorem dkeys_cons {α : Type} (p : String × α) (d : List (String × α)) :
    dkeys (p :: d) = p.1 :: dkeys d := rfl

theorem dkeys_append {α : Type} (d e : List (String × α)) :
    dkeys (d ++ e) = dkeys d ++ dkeys e := by
  simp [dkeys]

@[simp] theorem dlookup_nil {α : Type} (k : String) :
    dlookup ([] : List (String × α)) k = none := rfl

@[simp] theorem dlookup_cons {α : Type} (p : String × α) (d : List (String × α))
    (k : String) :
    dlookup (p :: d) k = if p.1 = k then some p.2 else dlookup d k := rfl

theorem dlookup_isSome_iff_mem_dkeys {α : Type} (d : List (String × α))
    (k : String) : (dlookup d k).isSome = true ↔ k ∈ dkeys d := by
  induction d with
  | nil => simp [dkeys]
  | cons p d ih =>
    by_cases h : p.1 = k
    · simp [dkeys, h]
    · simp [dkeys, h, ih, Ne.symm h]

theorem dlookup_eq_none_iff_not_mem {α : Type} (d : List (String × α))
    (k : String) : dlookup d k = none ↔ k ∉ dkeys d := by
  rw [← dlookup_isSome_iff_mem_dkeys]
  cases dlookup d k <;> simp

theorem dmem_iff_mem_dkeys {α : Type} (d : List (String × α)) (k : String) :
    dmem d k = true ↔ k ∈ dkeys d := by
  rw [dmem, dlookup_isSome_iff_mem_dkeys]

/-- `dictSet` never changes the key sequence of entries it rewrites. -/
theorem dkeys_dictSet {α : Type} (d : List (String × α)) (k : String) (v : α) :
    dkeys (dictSet d k v) = if dmem d k then dkeys d else dkeys d ++ [k] := by
  by_cases h : dmem d k
  · simp only [dictSet, h, if_true, dkeys, List.map_map]
    refine List.map_congr_left ?_
    intro p _
    by_cases hp : p.1 = k
    · simp [hp, Function.comp]
    · simp [hp, Function.comp]
  · simp [dictSet, h, dkeys]

theorem mem_dkeys_dictSet {α : Type} (d : List (String × α)) (k a : String)
    (v : α) : a ∈ dkeys (dictSet d k v) ↔ a ∈ dkeys d ∨ a = k := by
  rw [dkeys_dictSet]
  by_cases h : dmem d k
  · rw [if_pos h]
    constructor
    · exact fun ha => Or.inl ha
    · rintro (ha | rfl)
      · exact ha
      · exact (dmem_iff_mem_dkeys d a).mp h
  · simp [h]

theorem dlookup_setMap_self {α : Type} (d : List (String × α)) (k : String)
    (v : α) (h : k ∈ dkeys d) :
    dlookup (d.map (fun p => if p.1 = k then (k, v) else p)) k = some v := by
  induction d with
  | nil => simp [dkeys] at h
  | cons p d ih =>
    by_cases hp : p.1 = k
    · simp [hp]
    · have h' : k ∈ dkeys d := by
        rw [dkeys_cons] at h
        rcases List.mem_cons.mp h with h1 | h1
        · exact absurd h1.symm hp
        · exact h1
      simpa [hp] using ih h'

theorem dlookup_setMap_ne {α : Type} (d : List (String × α)) (k k' : String)
    (v : α) (h : k' ≠ k) :
    dlookup (d.map (fun p => if p.1 = k then (k, v) else p)) k' =
      dlookup d k' := by
  induction d with
  | nil => simp
  | cons p d ih =>
    by_cases hp : p.1 = k
    · simp [hp, Ne.symm h, ih]
    · by_cases hp' : p.1 = k'
      · simp [hp, hp', h, ih]
      · simp [hp, hp', ih]

theorem dlookup_append_left {α : Type} (d e : List (String × α)) (k : String)
    (h : k ∈ dkeys d) : dlookup (d ++ e) k = dlookup d k := by
  induction d with
  | nil => simp [dkeys] at h
  | cons p d ih =>
    by_cases hp : p.1 = k
    · simp [hp]
    · have h' : k ∈ dkeys d := by
        rw [dkeys_cons] at h
        rcases List.mem_cons.mp h with h1 | h1
        · exact absurd h1.symm hp
        · exact h1
      simpa [hp] using ih h'

theorem dlookup_append_right {α : Type} (d e : List (String × α)) (k : String)
    (h : k ∉ dkeys d) : dlookup (d ++ e) k = dlookup e k := by
  induction d with
  | nil => simp
  | cons p d ih =>
    have hp : p.1 ≠ k := by
      intro hpk
      exact h (by simp [dkeys, hpk])
    have h' : k ∉ dkeys d := by
      intro hk
      exact h (by simp [dkeys] at hk ⊢; exact Or.inr hk)
    simpa [hp] using ih h'

theorem dlookup_dictSet_self {α : Type} (d : List (String × α)) (k : String)
    (v : α) : dlookup (dictSet d k v) k = some v := by
  by_cases h : dmem d k
  · rw [dictSet, if_pos h]
    exact dlookup_setMap_self d k v ((dmem_iff_mem_dkeys d k).mp h)
  · rw [dictSet, if_neg h]
    have hk : k ∉ dkeys d := fun hk =>
      h ((dmem_iff_mem_dkeys d k).mpr hk)
    rw [dlookup_append_right d _ k hk]
    simp

theorem dlookup_dictSet_ne {α : Type} (d : List (String × α)) (k k' : String)
    (v : α) (h : k' ≠ k) : dlookup (dictSet d k v) k' = dlookup d k' := by
  by_cases hm : dmem d k
  · rw [dictSet, if_pos hm]
    exact dlookup_setMap_ne d k k' v h
  · rw [dictSet, if_neg hm]
    by_cases hk : k' ∈ dkeys d
    · exact dlookup_append_left d _ k' hk
    · rw [dlookup_append_right d _ k' hk]
      rw [(dlookup_eq_none_iff_not_mem d k').mpr hk]
      simp [Ne.symm h]

/-- `dictSet` preserves key distinctness. -/
theorem nodup_dkeys_dictSet {α : Type} (d : List (String × α)) (k : String)
    (v : α) (h : (dkeys d).Nodup) : (dkeys (dictSet d k v)).Nodup := by
  rw [dkeys_dictSet]
  by_cases hm : dmem d k
  · simpa [hm] using h
  · rw [if_neg hm]
    rw [List.nodup_append]
    refine ⟨h, List.nodup_singleton k, ?_⟩
    intro a ha hb
    have hb' : a = k := by simpa using hb
    subst hb'
    exact absurd ((dmem_iff_mem_dkeys d a).mpr ha) (by simp [hm])

/-- Writing back the value already stored at a key is a no-op
(for dicts with distinct keys). -/
theorem dictSet_eq_self {α : Type} (d : List (String × α)) (k : String) (v : α)
    (hnd : (dkeys d).Nodup) (h : dlookup d k = some v) : dictSet d k v = d := by
  have hm : dmem d k := by simp [dmem, h]
  simp only [dictSet, hm, if_true]
  induction d with
  | nil => simp at h
  | cons p d ih =>
    by_cases hp : p.1 = k
    · have hv : p.2 = v := by simpa [hp] using h
      have hk : k ∉ dkeys d := by
        have h2 := hnd
        rw [dkeys_cons, List.nodup_cons] at h2
        rw [hp] at h2
        exact h2.1
      have hmap : d.map (fun p => if p.1 = k then (k, v) else p) = d := by
        have heq : d.map (fun p => if p.1 = k then (k, v) else p) = d.map id := by
          refine List.map_congr_left ?_
          intro q hq
          have hq1 : q.1 ≠ k := by
            intro hqk
            exact hk (by simpa [dkeys, hqk] using List.mem_map_of_mem Prod.fst hq)
          simp [hq1]
        rw [heq, List.map_id]
      have hpv : p = (k, v) := by
        obtain ⟨a, b⟩ := p
        simp only at hp hv
        rw [hp, hv]
      rw [List.map_cons, if_pos hp, hmap, hpv]
    · have hnd' : (dkeys d).Nodup := by
        rw [dkeys_cons, List.nodup_cons] at hnd
        exact hnd.2
      have h' : dlookup d k = some v := by simpa [hp] using h
      have hm' : dmem d k := by simp [dmem, h']
      simpa [hp] using ih hnd' h' hm'

theorem hasUnderscore_iff (k : String) :
    hasUnderscore k = true ↔ '_' ∈ k.toList := by
  simp [hasUnderscore]

theorem symOf_toList (k : String) :
    (symOf k).toList = k.toList.takeWhile (fun c => c != '_') := rfl

theorem hasUnderscore_symOf (k : String) : hasUnderscore (symOf k) = false := by
  rw [← Bool.not_eq_true, hasUnderscore_iff, symOf_toList]
  intro hmem
  have := List.mem_takeWhile_imp hmem
  simp at this

theorem isSubstr_iff (a b : List Char) :
    isSubstr a b = true ↔ a <:+: b := by
  constructor
  · intro h
    rw [isSubstr, List.any_eq_true] at h
    obtain ⟨i, _, hp⟩ := h
    have hpre : a <+: b.drop i := List.isPrefixOf_iff_prefix.mp hp
    obtain ⟨t, ht⟩ := hpre
    exact ⟨b.take i, t, by rw [List.append_assoc, ht, List.take_append_drop]⟩
  · rintro ⟨s, t, hst⟩
    rw [isSubstr, List.any_eq_true]
    refine ⟨s.length, ?_, ?_⟩
    · rw [List.mem_range]
      have hle : s.length ≤ b.length := by
        rw [← hst]
        simp
      omega
    · rw [List.isPrefixOf_iff_prefix]
      exact ⟨t, by rw [← hst, List.append_assoc, List.drop_left]⟩

theorem matchesElem_false_of_no_underscore (e k : String)
    (h : hasUnderscore k = false) : matchesElem e k = false := by
  rw [← Bool.not_eq_true, matchesElem, isSubstr_iff]
  intro hin
  have hmem : '_' ∈ k.toList := hin.subset (by simp)
  rw [← Bool.not_eq_true, hasUnderscore_iff] at h
  exact h hmem

theorem dropWhile_eq_cons_pred_false {α : Type} (p : α → Bool) (l : List α)
    (c : α) (n : List α) (h : l.dropWhile p = c :: n) : p c = false := by
  induction l with
  | nil => simp [List.dropWhile] at h
  | cons a l ih =>
    rw [List.dropWhile_cons] at h
    by_cases hpa : p a = true
    · rw [if_pos hpa] at h
      exact ih h
    · rw [if_neg hpa] at h
      have hac : a = c := (List.cons.injEq a l c n ▸ h).1
      rw [← hac]
      exact Bool.not_eq_true _ ▸ hpa

/-- In a character list with exactly one underscore, the decomposition around
the underscore is the `takeWhile`/rest split. -/
theorem decomp_of_count_one (l : List Char) (h : l.count '_' = 1) :
    ∃ n, l = l.takeWhile (fun c => c != '_') ++ '_' :: n ∧
      '_' ∉ l.takeWhile (fun c => c != '_') ∧ '_' ∉ n := by
  have hmem : '_' ∈ l := by
    rw [← List.count_pos_iff]
    omega
  have hsplit := (List.takeWhile_append_dropWhile (p := fun c => c != '_')
    (l := l)).symm
  have hdw : l.dropWhile (fun c => c != '_') ≠ [] := by
    intro hnil
    have hmem2 : '_' ∈ l.takeWhile (fun c => c != '_') := by
      have h3 := List.takeWhile_append_dropWhile (p := fun c => c != '_') (l := l)
      rw [hnil, List.append_nil] at h3
      rw [h3]
      exact hmem
    have := List.mem_takeWhile_imp hmem2
    simp at this
  obtain ⟨c, n, hcn⟩ := List.exists_cons_of_ne_nil hdw
  have hc : c = '_' := by
    have := dropWhile_eq_cons_pred_false _ _ _ _ hcn
    simpa using this
  subst hc
  have hl2 : l = l.takeWhile (fun c => c != '_') ++ '_' :: n := by
    conv_lhs => rw [hsplit, hcn]
  refine ⟨n, hl2, ?_, ?_⟩
  · intro hmem'
    have := List.mem_takeWhile_imp hmem'
    simp at this
  · intro hmem'
    have hcount := congrArg (List.count '_') hl2
    have htw0 : (l.takeWhile (fun c => c != '_')).count '_' = 0 :=
      List.count_eq_zero.mpr (fun hm => by
        have := List.mem_takeWhile_imp hm
        simp at this)
    rw [List.count_append, List.count_cons_self, htw0] at hcount
    have hn : 0 < n.count '_' := List.count_pos_iff.mpr hmem'
    omega

/-- Two decompositions of the same list around an underscore, with
underscore-free prefixes, agree. -/
theorem underscore_decomp_inj :
    ∀ (p p' q q' : List Char), '_' ∉ p → '_' ∉ p' →
      p ++ '_' :: q = p' ++ '_' :: q' → p = p' ∧ q = q' := by
  intro p
  induction p with
  | nil =>
    intro p' q q' hp hp' h
    cases p' with
    | nil =>
      simp at h
      exact ⟨rfl, h⟩
    | cons c p'' =>
      exfalso
      simp at h
      apply hp'
      rw [← h.1]
      simp
  | cons c p ih =>
    intro p' q q' hp hp' h
    cases p' with
    | nil =>
      exfalso
      simp at h
      apply hp
      rw [h.1]
      simp
    | cons c' p'' =>
      simp only [List.cons_append, List.cons.injEq] at h
      have hcp : '_' ∉ p := fun hm => hp (List.mem_cons_of_mem c hm)
      have hcp' : '_' ∉ p'' := fun hm => hp' (List.mem_cons_of_mem c' hm)
      obtain ⟨h1, h2⟩ := ih p'' q q' hcp hcp' h.2
      exact ⟨by rw [h.1, h1], h2⟩

/-- For canonical data (`e`, `s`, `n` underscore-free), `e + "_"` occurs in
`s + "_" + n` exactly when `e` is a suffix of `s`. -/
theorem infix_underscore_iff_suffix (e s n : List Char) (he : '_' ∉ e)
    (hs : '_' ∉ s) (hn : '_' ∉ n) :
    (e ++ ['_']) <:+: (s ++ '_' :: n) ↔ e <:+ s := by
  constructor
  · rintro ⟨u, w, huw⟩
    have hassoc : (u ++ e) ++ '_' :: w = s ++ '_' :: n := by
      rw [← huw]
      simp
    have hu : '_' ∉ u := by
      intro hmem
      have hcount : (s ++ '_' :: n).count '_' = 1 := by
        rw [List.count_append, List.count_cons_self,
          List.count_eq_zero.mpr hs, List.count_eq_zero.mpr hn]
      rw [← hassoc, List.count_append, List.count_append,
        List.count_cons_self] at hcount
      have : 0 < u.count '_' := List.count_pos_iff.mpr hmem
      omega
    have hue : '_' ∉ u ++ e := by
      intro hmem
      rcases List.mem_append.mp hmem with hm | hm
      · exact hu hm
      · exact he hm
    obtain ⟨h1, _⟩ := underscore_decomp_inj (u ++ e) s w n hue hs hassoc
    exact ⟨u, h1⟩
  · rintro ⟨u, hu⟩
    exact ⟨u, n, by rw [← hu]; simp⟩

theorem keysWF_count (ks : List String) (h : keysWF ks = true) (k : String)
    (hk : k ∈ ks) (hu : hasUnderscore k = true) : k.toList.count '_' = 1 := by
  rw [keysWF, Bool.and_eq_true, List.all_eq_true] at h
  have h1 := h.1 k hk
  rw [hu] at h1
  simpa using h1

theorem keysWF_suffix (ks : List String) (h : keysWF ks = true)
    (k k' : String) (hk : k ∈ ks) (hk' : k' ∈ ks)
    (hu : hasUnderscore k = true) (hu' : hasUnderscore k' = true)
    (hsuf : (symOf k).toList <:+ (symOf k').toList) : symOf k = symOf k' := by
  rw [keysWF, Bool.and_eq_true] at h
  have h2 := h.2
  rw [List.all_eq_true] at h2
  have h3 := h2 k hk
  rw [List.all_eq_true] at h3
  have h4 := h3 k' hk'
  rw [hu, hu'] at h4
  have hsufb : (symOf k).toList.isSuffixOf (symOf k').toList = true := by
    rw [List.isSuffixOf_iff_suffix]
    exact hsuf
  rw [hsufb] at h4
  simpa using h4

theorem matchesElem_eq_symOf_iff (K : List String) (hwf : keysWF K = true)
    (k k' : String) (hk : k ∈ K) (hk' : k' ∈ K)
    (hu : hasUnderscore k = true) (hu' : hasUnderscore k' = true) :
    matchesElem (symOf k') k = true ↔ symOf k = symOf k' := by
  have hcnt := keysWF_count K hwf k hk hu
  obtain ⟨n, hl, hs, hn⟩ := decomp_of_count_one k.toList hcnt
  have he : '_' ∉ (symOf k').toList := by
    have h1 := hasUnderscore_symOf k'
    rw [← Bool.not_eq_true, hasUnderscore_iff] at h1
    exact h1
  have hs' : '_' ∉ (symOf k).toList := by
    rw [symOf_toList]
    exact hs
  have hkl : k.toList = (symOf k).toList ++ '_' :: n := by
    rw [symOf_toList]
    exact hl
  rw [matchesElem, isSubstr_iff, hkl,
    infix_underscore_iff_suffix _ _ _ he hs' hn]
  constructor
  · intro hsuf
    exact (keysWF_suffix K hwf k' k hk' hk hu' hu hsuf).symm
  · intro heq
    rw [heq]

theorem sum_match_eq_elemSumSpec (K : List String) (hwf : keysWF K = true)
    (d : List (String × ℚ))
    (hsub : ∀ a ∈ dkeys d, hasUnderscore a = true → a ∈ K)
    (k' : String) (hk' : k' ∈ K) (hu' : hasUnderscore k' = true) :
    sum_match d (symOf k') = elemSumSpec d (symOf k') := by
  rw [sum_match, elemSumSpec]
  have hfe : d.filter (fun p => matchesElem (symOf k') p.1) =
      d.filter (fun p => hasUnderscore p.1 && (symOf p.1 == symOf k')) := by
    apply List.filter_congr
    intro p hp
    have hpk : hasUnderscore p.1 = true → p.1 ∈ K :=
      hsub p.1 (List.mem_map_of_mem Prod.fst hp)
    by_cases hu : hasUnderscore p.1 = true
    · have hpk2 : p.1 ∈ K := hpk hu
      have hiff := matchesElem_eq_symOf_iff K hwf p.1 k' hpk2 hk' hu hu'
      rw [hu, Bool.true_and]
      cases hme : matchesElem (symOf k') p.1
      · have hne : ¬ symOf p.1 = symOf k' := by
          intro heq
          rw [hme] at hiff
          exact Bool.false_ne_true (hiff.mpr heq)
        simp [hne]
      · have heq : symOf p.1 = symOf k' := hiff.mp hme
        simp [heq]
    · have huf : hasUnderscore p.1 = false := by
        simpa using hu
      rw [matchesElem_false_of_no_underscore _ _ huf, huf, Bool.false_and]
  rw [hfe]

theorem filter_keyPred_setMap {α : Type} (P : String → Bool)
    (d : List (String × α)) (k : String) (v : α) (h : P k = false) :
    (d.map (fun p => if p.1 = k then (k, v) else p)).filter
        (fun p => P p.1) =
      d.filter (fun p => P p.1) := by
  induction d with
  | nil => simp
  | cons q d ih =>
    by_cases hq : q.1 = k
    · rw [List.map_cons, if_pos hq, List.filter_cons, List.filter_cons]
      have hPq : P q.1 = false := by rw [hq]; exact h
      simp only [hPq, h, Bool.false_eq_true, if_false, ih]
    · rw [List.map_cons, if_neg hq, List.filter_cons, List.filter_cons]
      by_cases hPq : P q.1 = true
      · simp only [hPq, if_true, ih]
      · simp only [Bool.not_eq_true] at hPq
        simp only [hPq, Bool.false_eq_true, if_false, ih]

theorem filter_keyPred_dictSet {α : Type} (P : String → Bool)
    (d : List (String × α)) (k : String) (v : α) (h : P k = false) :
    (dictSet d k v).filter (fun p => P p.1) = d.filter (fun p => P p.1) := by
  rw [dictSet]
  by_cases hm : dmem d k
  · rw [if_pos hm]
    exact filter_keyPred_setMap P d k v h
  · rw [if_neg hm, List.filter_append]
    have : ([(k, v)] : List (String × α)).filter (fun p => P p.1) = [] := by
      simp [List.filter_cons, h]
    rw [this, List.append_nil]

theorem sum_match_dictSet_nomatch (d : List (String × ℚ)) (k : String)
    (v : ℚ) (e : String) (h : matchesElem e k = false) :
    sum_match (dictSet d k v) e = sum_match d e := by
  rw [sum_match, sum_match, filter_keyPred_dictSet (fun a => matchesElem e a) d k v h]

theorem filter_keyPred_scaleD (P : String → Bool) (s : ℚ)
    (d : List (String × ℚ)) :
    (scaleD s d).filter (fun p => P p.1) =
      scaleD s (d.filter (fun p => P p.1)) := by
  induction d with
  | nil => simp [scaleD]
  | cons q d ih =>
    rw [scaleD, List.map_cons, List.filter_cons, List.filter_cons]
    by_cases hP : P q.1 = true
    · simp only [hP, if_true, scaleD, List.map_cons]
      rw [scaleD] at ih
      rw [ih]
      rfl
    · simp only [Bool.not_eq_true] at hP
      simp only [hP, Bool.false_eq_true, if_false]
      rw [scaleD] at ih
      rw [ih]

theorem sum_snd_scaleD (s : ℚ) (l : List (String × ℚ)) :
    ((scaleD s l).map Prod.snd).sum = (l.map Prod.snd).sum * s := by
  induction l with
  | nil => simp [scaleD]
  | cons q l ih =>
    rw [scaleD, List.map_cons, List.map_cons, List.sum_cons, List.map_cons,
      List.sum_cons]
    rw [scaleD] at ih
    rw [ih]
    ring

theorem sum_match_scaleD (s : ℚ) (d : List (String × ℚ)) (e : String) :
    sum_match (scaleD s d) e = sum_match d e * s := by
  rw [sum_match, sum_match, filter_keyPred_scaleD (fun a => matchesElem e a) s d,
    sum_snd_scaleD]

theorem metals_sum_scaleD (s : ℚ) (d : List (String × ℚ)) :
    metals_sum (scaleD s d) = metals_sum d * s := by
  rw [metals_sum, metals_sum,
    filter_keyPred_scaleD (fun a => !hasUnderscore a && a != "H" && a != "He") s d,
    sum_snd_scaleD]

theorem dkeys_scaleD (s : ℚ) (d : List (String × ℚ)) :
    dkeys (scaleD s d) = dkeys d := by
  rw [dkeys, scaleD, List.map_map, dkeys]
  rfl

theorem dlookup_scaleD (s : ℚ) (d : List (String × ℚ)) (k : String) :
    dlookup (scaleD s d) k = (dlookup d k).map (fun v => v * s) := by
  induction d with
  | nil => simp [scaleD]
  | cons q d ih =>
    by_cases hq : q.1 = k
    · simp [scaleD, hq]
    · simp only [scaleD, List.map_cons, dlookup_cons, hq, if_false]
      rw [scaleD] at ih
      exact ih

theorem dmem_scaleD (s : ℚ) (d : List (String × ℚ)) (k : String) :
    dmem (scaleD s d) k = dmem d k := by
  rw [dmem, dmem, dlookup_scaleD]
  cases dlookup d k <;> simp

theorem setMap_scaleD (s : ℚ) (d : List (String × ℚ)) (k : String) (v : ℚ) :
    (scaleD s d).map (fun p => if p.1 = k then (k, v * s) else p) =
      scaleD s (d.map (fun p => if p.1 = k then (k, v) else p)) := by
  induction d with
  | nil => rfl
  | cons q d ih =>
    by_cases hq : q.1 = k
    · simp only [scaleD, List.map_cons] at ih ⊢
      rw [if_pos hq]
      rw [show ((q.1, q.2 * s) : String × ℚ).1 = q.1 from rfl, if_pos hq]
      rw [ih]
    · simp only [scaleD, List.map_cons] at ih ⊢
      rw [if_neg hq]
      rw [show ((q.1, q.2 * s) : String × ℚ).1 = q.1 from rfl, if_neg hq]
      rw [ih]

theorem dictSet_scaleD (s : ℚ) (d : List (String × ℚ)) (k : String) (v : ℚ) :
    dictSet (scaleD s d) k (v * s) = scaleD s (dictSet d k v) := by
  rw [dictSet, dictSet, dmem_scaleD]
  by_cases hm : dmem d k
  · rw [if_pos hm, if_pos hm]
    exact setMap_scaleD s d k v
  · rw [if_neg hm, if_neg hm, scaleD, scaleD, List.map_append]
    rfl

theorem sum_match_sumElStep (acc : List (String × ℚ)) (a e : String) :
    sum_match (sumElStep acc a) e = sum_match acc e := by
  rw [sumElStep]
  by_cases ha : hasUnderscore a = true
  · rw [if_pos ha]
    exact sum_match_dictSet_nomatch _ _ _ _
      (matchesElem_false_of_no_underscore e (symOf a) (hasUnderscore_symOf a))
  · rw [if_neg ha]

theorem foldl_sumElStep_sum_match (ks : List String)
    (acc : List (String × ℚ)) (e : String) :
    sum_match (ks.foldl sumElStep acc) e = sum_match acc e := by
  induction ks generalizing acc with
  | nil => rfl
  | cons a ks ih =>
    rw [List.foldl_cons, ih, sum_match_sumElStep]

theorem foldl_sumElStep_lookup_underscore (ks : List String)
    (acc : List (String × ℚ)) (k : String) (hk : hasUnderscore k = true) :
    dlookup (ks.foldl sumElStep acc) k = dlookup acc k := by
  induction ks generalizing acc with
  | nil => rfl
  | cons a ks ih =>
    rw [List.foldl_cons, ih, sumElStep]
    by_cases ha : hasUnderscore a = true
    · rw [if_pos ha]
      apply dlookup_dictSet_ne
      intro heq
      rw [heq, hasUnderscore_symOf a] at hk
      exact Bool.false_ne_true hk
    · rw [if_neg ha]

theorem mem_dkeys_sumElStep (acc : List (String × ℚ)) (a k : String)
    (h : k ∈ dkeys (sumElStep acc a)) :
    k ∈ dkeys acc ∨ k = symOf a := by
  rw [sumElStep] at h
  by_cases ha : hasUnderscore a = true
  · rw [if_pos ha] at h
    exact (mem_dkeys_dictSet _ _ _ _).mp h
  · rw [if_neg ha] at h
    exact Or.inl h

theorem mem_dkeys_foldl_underscore (ks : List String)
    (acc : List (String × ℚ)) (k : String) (hk : hasUnderscore k = true)
    (h : k ∈ dkeys (ks.foldl sumElStep acc)) : k ∈ dkeys acc := by
  induction ks generalizing acc with
  | nil => exact h
  | cons a ks ih =>
    rw [List.foldl_cons] at h
    rcases mem_dkeys_sumElStep acc a k (ih _ h) with h1 | h1
    · exact h1
    · exfalso
      rw [h1, hasUnderscore_symOf a] at hk
      exact Bool.false_ne_true hk

theorem mem_dkeys_foldl_of_mem (ks : List String)
    (acc : List (String × ℚ)) (k : String) (h : k ∈ dkeys acc) :
    k ∈ dkeys (ks.foldl sumElStep acc) := by
  induction ks generalizing acc with
  | nil => exact h
  | cons a ks ih =>
    rw [List.foldl_cons]
    apply ih
    rw [sumElStep]
    by_cases ha : hasUnderscore a = true
    · rw [if_pos ha]
      exact (mem_dkeys_dictSet _ _ _ _).mpr (Or.inl h)
    · rw [if_neg ha]
      exact h

theorem foldl_sumElStep_lookup_stable (ks : List String)
    (acc : List (String × ℚ)) (e : String)
    (h : dlookup acc e = some (sum_match acc e)) :
    dlookup (ks.foldl sumElStep acc) e = some (sum_match acc e) := by
  induction ks generalizing acc with
  | nil => exact h
  | cons a ks ih =>
    rw [List.foldl_cons]
    have hsm : sum_match (sumElStep acc a) e = sum_match acc e :=
      sum_match_sumElStep acc a e
    have hlk : dlookup (sumElStep acc a) e =
        some (sum_match (sumElStep acc a) e) := by
      rw [hsm, sumElStep]
      by_cases ha : hasUnderscore a = true
      · rw [if_pos ha]
        by_cases hea : e = symOf a
        · rw [hea, dlookup_dictSet_self, ← hea]
        · rw [dlookup_dictSet_ne _ _ _ _ hea, h]
      · rw [if_neg ha]
        exact h
    rw [ih _ hlk, hsm]

theorem foldl_sumElStep_lookup_sym (ks : List String)
    (acc : List (String × ℚ)) (k : String) (hk : k ∈ ks)
    (hu : hasUnderscore k = true) :
    dlookup (ks.foldl sumElStep acc) (symOf k) =
      some (sum_match acc (symOf k)) := by
  induction ks generalizing acc with
  | nil => cases hk
  | cons a ks ih =>
    rw [List.foldl_cons]
    rcases List.mem_cons.mp hk with heq | hk'
    · subst heq
      have hstep : sumElStep acc k =
          dictSet acc (symOf k) (sum_match acc (symOf k)) := by
        rw [sumElStep, if_pos hu]
      have hlk : dlookup (sumElStep acc k) (symOf k) =
          some (sum_match (sumElStep acc k) (symOf k)) := by
        rw [sum_match_sumElStep, hstep, dlookup_dictSet_self]
      rw [foldl_sumElStep_lookup_stable ks _ _ hlk, sum_match_sumElStep]
    · rw [ih _ hk', sum_match_sumElStep]

theorem nodup_dkeys_sumElStep (acc : List (String × ℚ)) (a : String)
    (h : (dkeys acc).Nodup) : (dkeys (sumElStep acc a)).Nodup := by
  rw [sumElStep]
  by_cases ha : hasUnderscore a = true
  · rw [if_pos ha]
    exact nodup_dkeys_dictSet _ _ _ h
  · rw [if_neg ha]
    exact h

theorem nodup_dkeys_foldl_sumElStep (ks : List String)
    (acc : List (String × ℚ)) (h : (dkeys acc).Nodup) :
    (dkeys (ks.foldl sumElStep acc)).Nodup := by
  induction ks generalizing acc with
  | nil => exact h
  | cons a ks ih =>
    rw [List.foldl_cons]
    exact ih _ (nodup_dkeys_sumElStep acc a h)

theorem sum_elements_lookup_underscore (d : List (String × ℚ)) (k : String)
    (hk : hasUnderscore k = true) :
    dlookup (sum_elements d) k = dlookup d k :=
  foldl_sumElStep_lookup_underscore (dkeys d) d k hk

theorem sum_match_sum_elements (d : List (String × ℚ)) (e : String) :
    sum_match (sum_elements d) e = sum_match d e :=
  foldl_sumElStep_sum_match (dkeys d) d e

theorem nodup_dkeys_sum_elements (d : List (String × ℚ))
    (h : (dkeys d).Nodup) : (dkeys (sum_elements d)).Nodup :=
  nodup_dkeys_foldl_sumElStep (dkeys d) d h

theorem sum_elements_code_consistent (d : List (String × ℚ)) :
    CodeConsistent (sum_elements d) := by
  intro k hk hu
  have hkd : k ∈ dkeys d := mem_dkeys_foldl_underscore (dkeys d) d k hu hk
  rw [sum_match_sum_elements]
  exact foldl_sumElStep_lookup_sym (dkeys d) d k hkd hu

theorem foldl_sumElStep_eq_self (ks : List String) (acc : List (String × ℚ))
    (hnd : (dkeys acc).Nodup)
    (hc : ∀ k ∈ ks, hasUnderscore k = true →
      dlookup acc (symOf k) = some (sum_match acc (symOf k))) :
    ks.foldl sumElStep acc = acc := by
  induction ks with
  | nil => rfl
  | cons a ks ih =>
    rw [List.foldl_cons]
    have hstep : sumElStep acc a = acc := by
      rw [sumElStep]
      by_cases ha : hasUnderscore a = true
      · rw [if_pos ha]
        exact dictSet_eq_self _ _ _ hnd (hc a (List.mem_cons_self a ks) ha)
      · rw [if_neg ha]
    rw [hstep]
    exact ih (fun k hk hu => hc k (List.mem_cons_of_mem a hk) hu)

theorem sum_elements_eq_self (d : List (String × ℚ))
    (hnd : (dkeys d).Nodup) (hc : CodeConsistent d) : sum_elements d = d := by
  rw [sum_elements]
  exact foldl_sumElStep_eq_self (dkeys d) d hnd (fun k hk hu => hc k hk hu)

theorem sum_elements_idem (d : List (String × ℚ)) (hnd : (dkeys d).Nodup) :
    sum_elements (sum_elements d) = sum_elements d :=
  sum_elements_eq_self (sum_elements d) (nodup_dkeys_sum_elements d hnd)
    (sum_elements_code_consistent d)

theorem sumElStep_scaleD (s : ℚ) (acc : List (String × ℚ)) (a : String) :
    sumElStep (scaleD s acc) a = scaleD s (sumElStep acc a) := by
  rw [sumElStep, sumElStep]
  by_cases ha : hasUnderscore a = true
  · rw [if_pos ha, if_pos ha, sum_match_scaleD, dictSet_scaleD]
  · rw [if_neg ha, if_neg ha]

theorem foldl_sumElStep_scaleD (ks : List String) (s : ℚ)
    (acc : List (String × ℚ)) :
    ks.foldl sumElStep (scaleD s acc) = scaleD s (ks.foldl sumElStep acc) := by
  induction ks generalizing acc with
  | nil => rfl
  | cons a ks ih =>
    rw [List.foldl_cons, List.foldl_cons, sumElStep_scaleD, ih]

theorem sum_elements_scaleD (s : ℚ) (d : List (String × ℚ)) :
    sum_elements (scaleD s d) = scaleD s (sum_elements d) := by
  rw [sum_elements, sum_elements, dkeys_scaleD, foldl_sumElStep_scaleD]

theorem set_members_attrs_lookup_notmem (d : List (String × ℚ))
    (a : List (String × ℚ)) (k : String) (h : k ∉ dkeys d) :
    dlookup (set_members_attrs a d) k = dlookup a k := by
  induction d generalizing a with
  | nil => rfl
  | cons p d ih =>
    rw [set_members_attrs, List.foldl_cons]
    have hp : p.1 ≠ k := by
      intro hpk
      exact h (by simp [hpk])
    have h' : k ∉ dkeys d := by
      intro hk
      exact h (by simp [hk])
    rw [show (List.foldl (fun a' p => dictSet a' p.1 p.2) (dictSet a p.1 p.2) d) =
        set_members_attrs (dictSet a p.1 p.2) d from rfl]
    rw [ih _ h', dlookup_dictSet_ne _ _ _ _ (Ne.symm hp)]

theorem set_members_attrs_lookup (d : List (String × ℚ))
    (a : List (String × ℚ)) (k : String) (v : ℚ)
    (hnd : (dkeys d).Nodup) (h : dlookup d k = some v) :
    dlookup (set_members_attrs a d) k = some v := by
  induction d generalizing a with
  | nil => simp at h
  | cons p d ih =>
    rw [set_members_attrs, List.foldl_cons]
    rw [show (List.foldl (fun a' p => dictSet a' p.1 p.2) (dictSet a p.1 p.2) d) =
        set_members_attrs (dictSet a p.1 p.2) d from rfl]
    rw [dkeys_cons, List.nodup_cons] at hnd
    by_cases hp : p.1 = k
    · have hv : p.2 = v := by simpa [hp] using h
      rw [← hp, ← hv, set_members_attrs_lookup_notmem d _ p.1 hnd.1,
        dlookup_dictSet_self]
    · have h' : dlookup d k = some v := by simpa [hp] using h
      exact ih (dictSet a p.1 p.2) hnd.2 h'

@[simp] theorem set_members_abundances (y : Yields) :
    (set_members y).abundances = sum_elements y.abundances := rfl

@[simp] theorem set_members_attrs_eq (y : Yields) :
    (set_members y).attrs = set_members_attrs y.attrs (sum_elements y.abundances) := rfl

@[simp] theorem set_members_has_normalization (y : Yields) :
    (set_members y).has_normalization = y.has_normalization := rfl

@[simp] theorem set_members_total_metals (y : Yields) :
    (set_members y).total_metals = y.total_metals := rfl

@[simp] theorem set_members_abundances_interp (y : Yields) :
    (set_members y).abundances_interp = y.abundances_interp := rfl

@[simp] theorem set_members_metallicity_points (y : Yields) :
    (set_members y).metallicity_points = y.metallicity_points := rfl

@[simp] theorem set_members_metallicity (y : Yields) :
    (set_members y).metallicity = y.metallicity := rfl

@[simp] theorem set_members_mass_fractions (y : Yields) :
    (set_members y).mass_fractions_log_z = y.mass_fractions_log_z := rfl

theorem normalize_metals_ok (y : Yields) (T : ℚ) (y' : Yields)
    (h : normalize_metals y T = (y', none)) :
    metals_sum y.abundances ≠ 0 ∧ y' = normalized_state y T := by
  simp only [normalize_metals] at h
  by_cases h0 : metals_sum y.abundances = 0
  · rw [if_pos h0] at h
    exact absurd (congrArg Prod.snd h) (by simp)
  · rw [if_neg h0] at h
    refine ⟨h0, ?_⟩
    rw [normalized_state]
    exact (congrArg Prod.fst h).symm

theorem set_metallicity_ok (L : ℚ → ℚ) (y : Yields) (z : ℚ) (y' : Yields)
    (h : set_metallicity L y z = (y', none)) :
    (0 ≤ z ∧ z ≤ 1) ∧
      ((y.has_normalization = false ∧
          y' = { (interpolated_state L y z) with metallicity := z }) ∨
        (y.has_normalization = true ∧
          ∃ y2, normalize_metals (interpolated_state L y z) y.total_metals = (y2, none) ∧
            y' = { y2 with metallicity := z })) := by
  simp only [set_metallicity] at h
  by_cases hz : 0 ≤ z ∧ z ≤ 1
  · rw [if_neg (not_not_intro hz)] at h
    refine ⟨hz, ?_⟩
    rw [set_members_has_normalization] at h
    by_cases hn : y.has_normalization
    · rw [if_pos hn] at h
      refine Or.inr ⟨hn, ?_⟩
      split at h
      · exact absurd (congrArg Prod.snd h) (by simp)
      · rename_i y2 heq
        exact ⟨y2, heq, (congrArg Prod.fst h).symm⟩
    · rw [if_neg hn] at h
      exact Or.inl ⟨by simpa using hn, (congrArg Prod.fst h).symm⟩
  · rw [if_pos hz] at h
    exact absurd (congrArg Prod.snd h) (by simp)

theorem nodup_dkeys_interp_eval_fold (q : ℚ) (I : List (String × (ℚ → ℚ)))
    (d : List (String × ℚ)) (h : (dkeys d).Nodup) :
    (dkeys (interp_eval_fold q I d)).Nodup := by
  induction I generalizing d with
  | nil => exact h
  | cons p I ih =>
    rw [interp_eval_fold, List.foldl_cons]
    exact ih _ (nodup_dkeys_dictSet _ _ _ h)

theorem mem_dkeys_interp_eval_fold (q : ℚ) (I : List (String × (ℚ → ℚ)))
    (d : List (String × ℚ)) (k : String)
    (h : k ∈ dkeys (interp_eval_fold q I d)) :
    k ∈ dkeys d ∨ k ∈ dkeys I := by
  induction I generalizing d with
  | nil => exact Or.inl h
  | cons p I ih =>
    rw [interp_eval_fold, List.foldl_cons] at h
    rcases ih _ h with h1 | h1
    · rcases (mem_dkeys_dictSet _ _ _ _).mp h1 with h2 | h2
      · exact Or.inl h2
      · exact Or.inr (by simp [dkeys, h2])
    · exact Or.inr (by simp [dkeys] at h1 ⊢; exact Or.inr h1)

theorem normalize_metals_ok_props (y : Yields) (T : ℚ) (y' : Yields)
    (hnd : (dkeys y.abundances).Nodup)
    (hcons : sum_elements y.abundances = y.abundances)
    (h : normalize_metals y T = (y', none)) :
    metals_sum y'.abundances = T ∧ y'.total_metals = T ∧
      y'.has_normalization = true ∧ (dkeys y'.abundances).Nodup ∧
      sum_elements y'.abundances = y'.abundances := by
  obtain ⟨h0, hy'⟩ := normalize_metals_ok y T y' h
  subst hy'
  have hab : (normalized_state y T).abundances =
      sum_elements (scaleD (T / metals_sum y.abundances) y.abundances) := rfl
  have hndsc : (dkeys (scaleD (T / metals_sum y.abundances) y.abundances)).Nodup := by
    rw [dkeys_scaleD]
    exact hnd
  refine ⟨?_, rfl, rfl, ?_, ?_⟩
  · rw [hab, sum_elements_scaleD, hcons, metals_sum_scaleD]
    rw [mul_comm, div_mul_cancel₀ _ h0]
  · rw [hab]
    exact nodup_dkeys_sum_elements _ hndsc
  · rw [hab]
    exact sum_elements_idem _ hndsc

theorem set_metallicity_NormInv (L : ℚ → ℚ) (y : Yields) (z : ℚ) (y' : Yields)
    (T : ℚ) (hInv : NormInv T y) (h : set_metallicity L y z = (y', none)) :
    NormInv T y' ∧ metals_sum y'.abundances = T := by
  obtain ⟨hn, hT, hnd, _⟩ := hInv
  obtain ⟨hz, hcases⟩ := set_metallicity_ok L y z y' h
  rcases hcases with ⟨hf, _⟩ | ⟨_, y2, hnm, hy'⟩
  · rw [hn] at hf
    exact absurd hf (by simp)
  · have hndi : (dkeys (interpolated_state L y z).abundances).Nodup := by
      rw [show (interpolated_state L y z).abundances = sum_elements
        (interp_eval_fold (metallicity_log_entry L z) y.abundances_interp
          y.abundances) from rfl]
      exact nodup_dkeys_sum_elements _ (nodup_dkeys_interp_eval_fold _ _ _ hnd)
    have hconsi : sum_elements (interpolated_state L y z).abundances =
        (interpolated_state L y z).abundances := by
      rw [show (interpolated_state L y z).abundances = sum_elements
        (interp_eval_fold (metallicity_log_entry L z) y.abundances_interp
          y.abundances) from rfl]
      exact sum_elements_idem _ (nodup_dkeys_interp_eval_fold _ _ _ hnd)
    have hprops := normalize_metals_ok_props _ _ _ hndi hconsi hnm
    rw [hT] at hprops
    subst hy'
    exact ⟨⟨hprops.2.2.1, hprops.2.1, hprops.2.2.2.1, hprops.2.2.2.2⟩,
      hprops.1⟩

theorem set_metallicity_list_NormInv (L : ℚ → ℚ) (zs : List ℚ) (y : Yields)
    (y' : Yields) (T : ℚ) (hInv : NormInv T y)
    (h : set_metallicity_list L y zs = (y', none)) : NormInv T y' := by
  induction zs generalizing y with
  | nil =>
    rw [set_metallicity_list] at h
    have := congrArg Prod.fst h
    simp only at this
    rw [← this]
    exact hInv
  | cons z zs ih =>
    rw [set_metallicity_list] at h
    rcases hz : set_metallicity L y z with ⟨y1, e⟩
    rw [hz] at h
    cases e with
    | some err => exact absurd (congrArg Prod.snd h) (by simp)
    | none =>
      exact ih y1 (set_metallicity_NormInv L y z y1 T hInv hz).1 h

theorem normalize_metals_fst_mass_fractions (y : Yields) (T : ℚ) :
    ((normalize_metals y T).1).mass_fractions_log_z = y.mass_fractions_log_z := by
  simp only [normalize_metals]
  by_cases h0 : metals_sum y.abundances = 0
  · rw [if_pos h0]
  · rw [if_neg h0]
    rfl

theorem set_metallicity_fst_mass_fractions (L : ℚ → ℚ) (y : Yields) (z : ℚ) :
    ((set_metallicity L y z).1).mass_fractions_log_z =
      y.mass_fractions_log_z := by
  simp only [set_metallicity]
  by_cases hz : 0 ≤ z ∧ z ≤ 1
  · rw [if_neg (not_not_intro hz), set_members_has_normalization]
    by_cases hn : y.has_normalization
    · rw [if_pos hn]
      split
      · rename_i y2 e heq
        have hy2 : y2 = (normalize_metals (interpolated_state L y z)
            (interpolated_state L y z).total_metals).1 :=
          (congrArg Prod.fst heq).symm
        show y2.mass_fractions_log_z = y.mass_fractions_log_z
        rw [hy2, normalize_metals_fst_mass_fractions]
        rfl
      · rename_i y2 heq
        have hy2 : y2 = (normalize_metals (interpolated_state L y z)
            (interpolated_state L y z).total_metals).1 :=
          (congrArg Prod.fst heq).symm
        show y2.mass_fractions_log_z = y.mass_fractions_log_z
        rw [hy2, normalize_metals_fst_mass_fractions]
        rfl
    · rw [if_neg hn]
      rfl
  · rw [if_pos hz]

theorem set_metallicity_list_fst_mass_fractions (L : ℚ → ℚ) (zs : List ℚ)
    (y : Yields) :
    ((set_metallicity_list L y zs).1).mass_fractions_log_z =
      y.mass_fractions_log_z := by
  induction zs generalizing y with
  | nil => rfl
  | cons z zs ih =>
    rw [set_metallicity_list]
    rcases hz : set_metallicity L y z with ⟨y1, e⟩
    have h1 : y1.mass_fractions_log_z = y.mass_fractions_log_z := by
      rw [show y1 = (set_metallicity L y z).1 from (congrArg Prod.fst hz).symm,
        set_metallicity_fst_mass_fractions]
    cases e with
    | some err => exact h1
    | none => rw [ih y1, h1]

theorem normalize_metals_snd (y : Yields) (T : ℚ) :
    (normalize_metals y T).2 = none ∨
      (normalize_metals y T).2 = some PyError.zeroDivisionError := by
  simp only [normalize_metals]
  by_cases h0 : metals_sum y.abundances = 0
  · rw [if_pos h0]
    exact Or.inr rfl
  · rw [if_neg h0]
    exact Or.inl rfl

/-- Claim C1: normalization is sticky and idempotent.  After
`normalize_metals(T)` succeeds on an instance whose current metal sum is
nonzero, every later successful `set_metallicity(z)` leaves `metals_sum()`
exactly `T`, however many metallicity changes happen in between.  The two
extra hypotheses record that the instance is in the state the API always
leaves it in: distinct abundance keys and element aggregates already in the
`_sum_elements` fixed point. -/
theorem normalization_sticky (L : ℚ → ℚ) (y y1 y2 y3 : Yields) (T : ℚ)
    (zs : List ℚ) (z : ℚ)
    (hnd : (dkeys y.abundances).Nodup)
    (hcons : sum_elements y.abundances = y.abundances)
    (hnz : metals_sum y.abundances ≠ 0)
    (h1 : normalize_metals y T = (y1, none))
    (h2 : set_metallicity_list L y1 zs = (y2, none))
    (h3 : set_metallicity L y2 z = (y3, none)) :
    metals_sum y3.abundances = T := by
  have hp := normalize_metals_ok_props y T y1 hnd hcons h1
  have hInv1 : NormInv T y1 := ⟨hp.2.2.1, hp.2.1, hp.2.2.2.1, hp.2.2.2.2⟩
  have hInv2 := set_metallicity_list_NormInv L zs y1 y2 T hInv1 h2
  exact (set_metallicity_NormInv L y2 z y3 T hInv2 h3).2

/-- Claim C4: `mass_fraction` is invariant under `normalize_metals` and
under any sequence of `set_metallicity` calls: the mass-fraction index built
at construction is never touched again, so the function computes the same
value on the instance before and after those operations. -/
theorem mass_fraction_invariant (L : ℚ → ℚ) (y : Yields) (T : ℚ)
    (zs : List ℚ) (iso : String) (z : ℚ) :
    mass_fraction L ((normalize_metals y T).1) iso z =
        mass_fraction L y iso z ∧
      mass_fraction L ((set_metallicity_list L y zs).1) iso z =
        mass_fraction L y iso z ∧
      mass_fraction L ((set_metallicity_list L ((normalize_metals y T).1) zs).1)
          iso z =
        mass_fraction L y iso z := by
  have key : ∀ y1 y2 : Yields,
      y1.mass_fractions_log_z = y2.mass_fractions_log_z →
      mass_fraction L y1 iso z = mass_fraction L y2 iso z := by
    intro y1 y2 h
    rw [mass_fraction, mass_fraction, h]
  refine ⟨key _ _ (normalize_metals_fst_mass_fractions y T), ?_, ?_⟩
  · exact key _ _ (set_metallicity_list_fst_mass_fractions L zs y)
  · have h1 := set_metallicity_list_fst_mass_fractions L zs
      ((normalize_metals y T).1)
    rw [normalize_metals_fst_mass_fractions y T] at h1
    exact key _ _ h1

/-- Claim C5: `set_metallicity` raises its validation `ValueError` exactly
when the metallicity is outside `[0, 1]`, and in that case the check comes
before any mutation, so the instance state is untouched. -/
theorem set_metallicity_validation (L : ℚ → ℚ) (y : Yields) (z : ℚ) :
    ((∃ m, (set_metallicity L y z).2 = some (PyError.valueError m)) ↔
        ¬(0 ≤ z ∧ z ≤ 1)) ∧
      (¬(0 ≤ z ∧ z ≤ 1) → (set_metallicity L y z).1 = y) := by
  constructor
  · constructor
    · rintro ⟨m, hm⟩ hz
      simp only [set_metallicity] at hm
      rw [if_neg (not_not_intro hz), set_members_has_normalization] at hm
      by_cases hn : y.has_normalization
      · rw [if_pos hn] at hm
        split at hm
        · rename_i y2 e heq
          have h2 := congrArg Prod.snd heq
          have h2' : (normalize_metals (interpolated_state L y z)
              (interpolated_state L y z).total_metals).2 = some e := h2
          rcases normalize_metals_snd (interpolated_state L y z)
              (interpolated_state L y z).total_metals with h3 | h3
          · rw [h2'] at h3
            simp at h3
          · rw [h2'] at h3
            have he : e = PyError.zeroDivisionError := by
              simpa using h3
            rw [show ((y2, some e) : Yields × Option PyError).2 = some e
              from rfl, he] at hm
            simp at hm
        · simp at hm
      · rw [if_neg hn] at hm
        simp at hm
    · intro hz
      simp only [set_metallicity]
      rw [if_pos hz]
      exact ⟨"Metallicity must be between zero and one.", rfl⟩
  · intro hz
    simp only [set_metallicity]
    rw [if_pos hz]

theorem chainFst_head_lt_get (l : List (ℚ × ℚ)) (j : Nat)
    (hj : j + 1 < l.length) (h0 : 0 < l.length)
    (hch : (l.map Prod.fst).Chain' (· < ·)) :
    (l.get ⟨0, h0⟩).1 < (l.get ⟨j + 1, hj⟩).1 := by
  induction j generalizing l with
  | zero =>
    match l, hj with
    | p1 :: p2 :: rest, _ =>
      simp only [List.map_cons, List.chain'_cons] at hch
      exact hch.1
  | succ j ih =>
    match l, hj with
    | p1 :: p2 :: rest, hj =>
      have h1 : p1.1 < p2.1 := by
        simp only [List.map_cons, List.chain'_cons] at hch
        exact hch.1
      have hch2 : ((p2 :: rest).map Prod.fst).Chain' (· < ·) := by
        simp only [List.map_cons, List.chain'_cons] at hch ⊢
        exact hch.2
      have hj2 : j + 1 < (p2 :: rest).length := by
        simp only [List.length_cons] at hj ⊢
        omega
      have := ih (p2 :: rest) hj2 (by simp) hch2
      simp only [List.get_cons_zero] at this
      calc (((p1 :: p2 :: rest) : List (ℚ × ℚ)).get ⟨0, h0⟩).1 = p1.1 := rfl
        _ < p2.1 := h1
        _ < ((p2 :: rest).get ⟨j + 1, hj2⟩).1 := this
        _ = (((p1 :: p2 :: rest) : List (ℚ × ℚ)).get ⟨j + 2, hj⟩).1 := rfl

theorem chainFst_head_le_get (l : List (ℚ × ℚ)) (j : Nat) (hj : j < l.length)
    (h0 : 0 < l.length) (hch : (l.map Prod.fst).Chain' (· < ·)) :
    (l.get ⟨0, h0⟩).1 ≤ (l.get ⟨j, hj⟩).1 := by
  cases j with
  | zero => rfl
  | succ j => exact le_of_lt (chainFst_head_lt_get l j hj h0 hch)

theorem chainFst_head_le_getLast (l : List (ℚ × ℚ)) (hne : l ≠ [])
    (hch : (l.map Prod.fst).Chain' (· < ·)) :
    (l.head hne).1 ≤ (l.getLast hne).1 := by
  induction l with
  | nil => exact absurd rfl hne
  | cons p1 tail ih =>
    cases tail with
    | nil => simp
    | cons p2 rest =>
      have h1 : p1.1 < p2.1 := by
        simp only [List.map_cons, List.chain'_cons] at hch
        exact hch.1
      have hch2 : ((p2 :: rest).map Prod.fst).Chain' (· < ·) := by
        simp only [List.map_cons, List.chain'_cons] at hch
        simp only [List.map_cons]
        exact hch.2
      have h2 := ih (by simp) hch2
      rw [List.getLast_cons (by simp : (p2 :: rest : List (ℚ × ℚ)) ≠ [])]
      simp only [List.head_cons] at h2 ⊢
      exact le_trans (le_of_lt h1) h2

theorem interpPiece_above (q : ℚ) (pts : List (ℚ × ℚ)) (hne : pts ≠ [])
    (hch : (pts.map Prod.fst).Chain' (· < ·))
    (hq : (pts.getLast hne).1 < q) :
    interpPiece pts q = (pts.getLast hne).2 := by
  induction pts with
  | nil => exact absurd rfl hne
  | cons p1 tail ih =>
    cases tail with
    | nil => simp [interpPiece]
    | cons p2 rest =>
      have hlast : ((p1 :: p2 :: rest : List (ℚ × ℚ)).getLast hne) =
          ((p2 :: rest : List (ℚ × ℚ)).getLast (by simp)) :=
        List.getLast_cons (by simp)
      have hch2 : ((p2 :: rest).map Prod.fst).Chain' (· < ·) := by
        simp only [List.map_cons, List.chain'_cons] at hch
        simp only [List.map_cons]
        exact hch.2
      have hhead : p2.1 ≤ ((p2 :: rest : List (ℚ × ℚ)).getLast (by simp)).1 := by
        have := chainFst_head_le_getLast (p2 :: rest) (by simp) hch2
        simpa using this
      have hq2 : ¬ q ≤ p2.1 := by
        rw [hlast] at hq
        exact not_le.mpr (lt_of_le_of_lt hhead hq)
      rw [show interpPiece (p1 :: p2 :: rest) q =
        (if q ≤ p2.1 then p1.2 + (p2.2 - p1.2) * (q - p1.1) / (p2.1 - p1.1)
          else interpPiece (p2 :: rest) q) from rfl]
      rw [if_neg hq2, hlast]
      exact ih (by simp) hch2 (by rw [hlast] at hq; exact hq)

theorem interpPiece_segment (q : ℚ) : ∀ (pts : List (ℚ × ℚ)) (i : Nat)
    (hi : i + 1 < pts.length),
    (pts.map Prod.fst).Chain' (· < ·) →
    (pts.get ⟨i, by omega⟩).1 ≤ q → q ≤ (pts.get ⟨i + 1, hi⟩).1 →
    interpPiece pts q = (pts.get ⟨i, by omega⟩).2 +
      ((pts.get ⟨i + 1, hi⟩).2 - (pts.get ⟨i, by omega⟩).2) *
        (q - (pts.get ⟨i, by omega⟩).1) /
        ((pts.get ⟨i + 1, hi⟩).1 - (pts.get ⟨i, by omega⟩).1) := by
  intro pts
  induction pts with
  | nil =>
    intro i hi
    simp at hi
  | cons p1 tail ih =>
    intro i hi hch hle hge
    cases tail with
    | nil => simp at hi
    | cons p2 rest =>
      have hstep : interpPiece (p1 :: p2 :: rest) q =
          (if q ≤ p2.1 then p1.2 + (p2.2 - p1.2) * (q - p1.1) / (p2.1 - p1.1)
            else interpPiece (p2 :: rest) q) := rfl
      have h12 : p1.1 < p2.1 := by
        simp only [List.map_cons, List.chain'_cons] at hch
        exact hch.1
      have hch2 : ((p2 :: rest).map Prod.fst).Chain' (· < ·) := by
        simp only [List.map_cons, List.chain'_cons] at hch
        simp only [List.map_cons]
        exact hch.2
      cases i with
      | zero =>
        have hge' : q ≤ p2.1 := hge
        rw [hstep, if_pos hge']
        rfl
      | succ j =>
        have hj2 : j + 1 < (p2 :: rest).length := by
          simp only [List.length_cons] at hi ⊢
          omega
        have hgets : ((p1 :: p2 :: rest : List (ℚ × ℚ)).get
            ⟨j + 1, by omega⟩) = ((p2 :: rest : List (ℚ × ℚ)).get
            ⟨j, by omega⟩) := rfl
        have hgets2 : ((p1 :: p2 :: rest : List (ℚ × ℚ)).get ⟨j + 2, hi⟩) =
            ((p2 :: rest : List (ℚ × ℚ)).get ⟨j + 1, hj2⟩) := rfl
        by_cases hq2 : q ≤ p2.1
        · have hp2x : p2.1 ≤ ((p2 :: rest : List (ℚ × ℚ)).get
              ⟨j, by omega⟩).1 := by
            have := chainFst_head_le_get (p2 :: rest) j (by omega) (by simp)
              hch2
            simpa using this
          have hxq : ((p2 :: rest : List (ℚ × ℚ)).get ⟨j, by omega⟩).1 ≤ q := by
            rw [← hgets]
            exact hle
          have hqp2 : q = p2.1 := le_antisymm hq2 (le_trans hp2x hxq)
          have hxp2 : ((p2 :: rest : List (ℚ × ℚ)).get ⟨j, by omega⟩).1 =
              p2.1 := le_antisymm (hqp2 ▸ hxq) hp2x
          cases j with
          | zero =>
            rw [hstep, if_pos hq2]
            simp only [List.get_cons_succ, List.get_cons_zero]
            have hne12 : p2.1 - p1.1 ≠ 0 := by
              intro hz
              have h' : p1.1 = p2.1 := by linarith
              exact absurd h' (ne_of_lt h12)
            have hg0 : ((p2 :: rest : List (ℚ × ℚ)).get ⟨0, by simp⟩) = p2 :=
              rfl
            rw [hg0, hqp2, sub_self, mul_zero, zero_div, add_zero,
              mul_div_cancel_right₀ _ hne12]
            ring
          | succ j' =>
            exfalso
            have := chainFst_head_lt_get (p2 :: rest) j' (by omega) (by simp)
              hch2
            simp only [List.get_cons_zero] at this
            rw [show ((p2 :: rest : List (ℚ × ℚ)).get ⟨j' + 1, by omega⟩).1 =
              ((p2 :: rest : List (ℚ × ℚ)).get ⟨j' + 1, by omega⟩).1 from rfl]
              at this
            rw [hxp2] at this
            exact absurd this (lt_irrefl p2.1)
        · rw [hstep, if_neg hq2, hgets, hgets2]
          exact ih j hj2 hch2 (by rw [← hgets]; exact hle)
            (by rw [← hgets2]; exact hge)


theorem get_zip_q (xs ys : List ℚ) (i : Nat) (hi : i < (xs.zip ys).length)
    (hx : i < xs.length) (hy : i < ys.length) :
    (xs.zip ys).get ⟨i, hi⟩ = (xs.get ⟨i, hx⟩, ys.get ⟨i, hy⟩) := by
  induction xs generalizing ys i with
  | nil => simp at hx
  | cons x xs ih =>
    cases ys with
    | nil => simp at hy
    | cons y ys =>
      cases i with
      | zero => rfl
      | succ i =>
        exact ih ys i (by simpa using hi) (by simpa using hx)
          (by simpa using hy)

theorem getLast_zip_q (xs ys : List ℚ) (hlen : xs.length = ys.length)
    (hx : xs ≠ []) (hy : ys ≠ []) (hz : xs.zip ys ≠ []) :
    (xs.zip ys).getLast hz = (xs.getLast hx, ys.getLast hy) := by
  induction xs generalizing ys with
  | nil => exact absurd rfl hx
  | cons x xs ih =>
    cases ys with
    | nil => exact absurd rfl hy
    | cons y ys =>
      cases xs with
      | nil =>
        cases ys with
        | nil => rfl
        | cons y2 ys2 => simp at hlen
      | cons x2 xs2 =>
        cases ys with
        | nil => simp at hlen
        | cons y2 ys2 =>
          have hzz : ((x2 :: xs2).zip (y2 :: ys2)) ≠ [] := by simp
          show ((x, y) :: ((x2 :: xs2).zip (y2 :: ys2)) :
              List (ℚ × ℚ)).getLast (by simp) =
            ((x :: x2 :: xs2).getLast hx, (y :: y2 :: ys2).getLast hy)
          rw [List.getLast_cons hzz,
            List.getLast_cons (by simp : (x2 :: xs2 : List ℚ) ≠ []),
            List.getLast_cons (by simp : (y2 :: ys2 : List ℚ) ≠ [])]
          exact ih (y2 :: ys2) (by simpa using hlen) (by simp) (by simp) hzz

/-- Claim C3: for an interpolator built by `_interpolation_wrapper` from a
metallicity grid whose log image is strictly increasing and an equal-length
value list, a query below the lowest log grid point returns `values[0]`, a
query above the highest returns `values[-1]`, and a query between two
adjacent grid points returns the exact linear interpolation of their values
in log-metallicity space — never a linearly extrapolated value. -/
theorem interpolation_wrapper_spec (L : ℚ → ℚ) (mets vals xs : List ℚ)
    (q : ℚ) (hxs : xs = mets.map (metallicity_log_entry L))
    (hlen : xs.length = vals.length) (hne : xs ≠ [])
    (hmono : xs.Chain' (· < ·)) :
    (∀ (h0 : 0 < xs.length) (h0v : 0 < vals.length),
        q < xs.get ⟨0, h0⟩ →
        interpolation_wrapper L mets vals q = vals.get ⟨0, h0v⟩) ∧
      (∀ (hnev : vals ≠ []), xs.getLast hne < q →
        interpolation_wrapper L mets vals q = vals.getLast hnev) ∧
      (∀ (i : Nat) (hi : i + 1 < xs.length) (hi2 : i + 1 < vals.length),
        xs.get ⟨i, by omega⟩ ≤ q → q ≤ xs.get ⟨i + 1, hi⟩ →
        interpolation_wrapper L mets vals q =
          vals.get ⟨i, by omega⟩ +
            (vals.get ⟨i + 1, hi2⟩ - vals.get ⟨i, by omega⟩) *
              (q - xs.get ⟨i, by omega⟩) /
              (xs.get ⟨i + 1, hi⟩ - xs.get ⟨i, by omega⟩)) := by
  have hw : interpolation_wrapper L mets vals q = interp1d xs vals q := by
    rw [hxs]
    rfl
  match xs, hne with
  | x0 :: xs', _ =>
  match vals, (by rw [← hlen]; simp : 0 < vals.length) with
  | v0 :: vs', _ =>
  have hlen' : xs'.length = vs'.length := by
    simpa using hlen
  have hzlen : ((x0 :: xs').zip (v0 :: vs')).length = (x0 :: xs').length := by
    rw [List.length_zip, hlen, min_self]
  have hmapfst : (((x0 :: xs').zip (v0 :: vs')).map Prod.fst) = x0 :: xs' :=
    List.map_fst_zip _ _ (le_of_eq hlen)
  have hchp : ((((x0 :: xs').zip (v0 :: vs')).map Prod.fst).Chain' (· < ·)) := by
    rw [hmapfst]
    exact hmono
  refine ⟨?_, ?_, ?_⟩
  · intro h0 h0v hq
    rw [hw]
    simp only [interp1d]
    rw [if_pos (by simpa using hq)]
    rfl
  · intro hnev hq
    rw [hw]
    have hzne : ((x0 :: xs').zip (v0 :: vs')) ≠ [] := by
      rw [← List.length_pos, hzlen]
      simp
    have h3 : (((x0 :: xs').zip (v0 :: vs')).getLast hzne) =
        ((x0 :: xs').getLast (by simp), (v0 :: vs').getLast (by simp)) :=
      getLast_zip_q _ _ hlen (by simp) (by simp) hzne
    have hq' : (x0 :: xs').getLast (by simp) < q := hq
    have hx0 : x0 ≤ (x0 :: xs').getLast (by simp) := by
      have h1 := chainFst_head_le_getLast _ hzne hchp
      rw [show (((x0 :: xs').zip (v0 :: vs')).head hzne) = (x0, v0) from rfl,
        h3] at h1
      exact h1
    have hnlt : ¬ q < x0 := not_lt.mpr (le_trans hx0 (le_of_lt hq'))
    simp only [interp1d]
    rw [if_neg hnlt]
    have habove := interpPiece_above q _ hzne hchp (by rw [h3]; exact hq')
    rw [habove, h3]
  · intro i hi hi2 hle hge
    rw [hw]
    have hx0 : x0 ≤ (x0 :: xs').get ⟨i, by omega⟩ := by
      have h1 := chainFst_head_le_get ((x0 :: xs').zip (v0 :: vs')) i
        (by rw [hzlen]; omega) (by rw [hzlen]; simp) hchp
      rw [get_zip_q _ _ 0 _ (by simp) (by simp [← hlen]),
        get_zip_q _ _ i _ (by omega) (by rw [← hlen]; omega)] at h1
      exact h1
    have hnlt : ¬ q < x0 := not_lt.mpr (le_trans hx0 hle)
    simp only [interp1d]
    rw [if_neg hnlt]
    have hseg := interpPiece_segment q ((x0 :: xs').zip (v0 :: vs')) i
      (by rw [hzlen]; exact hi) hchp
    rw [get_zip_q _ _ i _ (by omega) (by rw [← hlen]; omega),
      get_zip_q _ _ (i + 1) _ (by omega) (by rw [← hlen]; omega)] at hseg
    exact hseg hle hge


/-- Claim C7 counterexample: `_metallicity_log` does not return the same
shape for a scalar input — `np.array(value, ndmin=1)` promotes the scalar to
a 1-element array, so the result has shape `(1,)` while the input has shape
`()`. -/
theorem metallicity_log_shape_counterexample :
    [(metallicity_log (fun _ => 0) (NpInput.scalar 0)).length] ≠
        npShape (NpInput.scalar 0) ∧
      metallicity_log (fun _ => 0) (NpInput.scalar 0) = [-6] := by
  constructor
  · intro h
    simp [metallicity_log, np_array_ndmin1, npShape] at h
  · rfl

/-- Claim C7 (amended): `_metallicity_log` accepts a scalar or a sequence of
values in `[0, 1]`; a sequence input keeps its shape while a scalar input
becomes a 1-element array; every element equal to 0 is mapped to exactly
`-6` and every nonzero element `x` to `log10 x` (`L x`), element-wise.  The
function is total — in particular no error is raised for negative or `> 1`
inputs. -/
theorem metallicity_log_spec (L : ℚ → ℚ) (v : NpInput) :
    (metallicity_log L v).length = (np_array_ndmin1 v).length ∧
      (∀ xs, v = NpInput.arr xs →
        [(metallicity_log L v).length] = npShape v) ∧
      (∀ (i : Nat) (hi : i < (np_array_ndmin1 v).length)
        (hi2 : i < (metallicity_log L v).length),
        (metallicity_log L v).get ⟨i, hi2⟩ =
          if (np_array_ndmin1 v).get ⟨i, hi⟩ = 0 then -6
          else L ((np_array_ndmin1 v).get ⟨i, hi⟩)) := by
  refine ⟨by rw [metallicity_log, List.length_map], ?_, ?_⟩
  · rintro xs rfl
    simp [metallicity_log, np_array_ndmin1, npShape]
  · intro i hi hi2
    simp only [metallicity_log, metallicity_log_entry, List.get_eq_getElem,
      List.getElem_map]

/-- Claim C9 counterexample: the individual-model label parser does not
split every `<number><symbol>` label at the first alphabetic character — a
three-digit mass number such as `128Te` is split after two characters,
yielding `8Te_12` instead of `Te_128`. -/
theorem parse_nomoto_individual_element_counterexample :
    parse_nomoto_individual_element "128Te" = some ("8Te_12") ∧
      parse_nomoto_individual_element "128Te" ≠ some ("Te_128") := by
  constructor
  · rfl
  · decide

/-- Claim C9 (amended): the individual-model label parser maps `p` to `H_1`
and `d` to `H_2`, and maps every label of the form `<number><symbol>` whose
decimal mass number has at most two digits (e.g. `28Si`) to
`<symbol>_<number>`, splitting at the first alphabetic character.  (For mass
numbers of three or more digits the code splits after exactly two
characters instead.) -/
theorem parse_nomoto_individual_element_spec :
    parse_nomoto_individual_element "p" = some ("H_1") ∧
      parse_nomoto_individual_element "d" = some ("H_2") ∧
      (∀ (ds ss : List Char), ds ≠ [] → ds.length ≤ 2 →
        (∀ c ∈ ds, c.isDigit = true) → (∀ c ∈ ds, c.isAlpha = false) →
        ss ≠ [] → (∀ c ∈ ss, c.isAlpha = true) →
        parse_nomoto_individual_element (String.mk (ds ++ ss)) =
          some (String.mk (ss ++ '_' :: ds))) := by
  refine ⟨rfl, rfl, ?_⟩
  intro ds ss hne hlen2 _ hnal hssne hal
  have hlong : (ds ++ ss).length ≥ 2 := by
    have h1 : 1 ≤ ds.length := List.length_pos.mpr hne
    have h2 : 1 ≤ ss.length := List.length_pos.mpr hssne
    rw [List.length_append]
    omega
  have hnp : String.mk (ds ++ ss) ≠ "p" := by
    intro h
    have hdata : ds ++ ss = ("p" : String).data := congrArg String.data h
    have hp1 : ("p" : String).data = ['p'] := by decide
    have hfin : (ds ++ ss).length = 1 := by
      rw [hdata, hp1]
      rfl
    omega
  have hnd : String.mk (ds ++ ss) ≠ "d" := by
    intro h
    have hdata : ds ++ ss = ("d" : String).data := congrArg String.data h
    have hp1 : ("d" : String).data = ['d'] := by decide
    have hfin : (ds ++ ss).length = 1 := by
      rw [hdata, hp1]
      rfl
    omega
  rw [parse_nomoto_individual_element, if_neg hnp, if_neg hnd]
  match ds, hne, hlen2, hnal with
  | [d0], _, _, hnal =>
    match ss, hssne, hal with
    | s0 :: ss', _, hal =>
      have hs0 : s0.isAlpha = true := hal s0 (List.mem_cons_self s0 ss')
      show (if s0.isAlpha then some (String.mk ((s0 :: ss') ++ '_' :: [d0]))
        else some (String.mk (ss' ++ '_' :: [d0, s0]))) =
        some (String.mk ((s0 :: ss') ++ '_' :: [d0]))
      rw [if_pos hs0]
  | [d0, d1], _, _, hnal =>
    have hd1 : d1.isAlpha = false :=
      hnal d1 (List.mem_cons_of_mem d0 (List.mem_cons_self d1 []))
    match ss, hssne, hal with
    | s0 :: ss', _, hal =>
      show (if d1.isAlpha then
          some (String.mk ((d1 :: s0 :: ss') ++ '_' :: [d0]))
        else some (String.mk ((s0 :: ss') ++ '_' :: [d0, d1]))) =
        some (String.mk ((s0 :: ss') ++ '_' :: [d0, d1]))
      rw [if_neg (by simp [hd1])]


theorem normalize_metals_fst_fields (y : Yields) (T : ℚ) :
    ((normalize_metals y T).1).abundances_interp = y.abundances_interp ∧
      ((normalize_metals y T).1).metallicity_points = y.metallicity_points ∧
      (y.has_normalization = true →
        ((normalize_metals y T).1).has_normalization = true) := by
  simp only [normalize_metals]
  by_cases h0 : metals_sum y.abundances = 0
  · rw [if_pos h0]
    exact ⟨rfl, rfl, fun h => h⟩
  · rw [if_neg h0]
    exact ⟨rfl, rfl, fun _ => rfl⟩

theorem set_metallicity_fst_fields (L : ℚ → ℚ) (y : Yields) (z : ℚ) :
    ((set_metallicity L y z).1).abundances_interp = y.abundances_interp ∧
      ((set_metallicity L y z).1).metallicity_points = y.metallicity_points ∧
      ((set_metallicity L y z).1).has_normalization = y.has_normalization := by
  simp only [set_metallicity]
  by_cases hz : 0 ≤ z ∧ z ≤ 1
  · rw [if_neg (not_not_intro hz), set_members_has_normalization]
    by_cases hn : y.has_normalization
    · rw [if_pos hn]
      split
      · rename_i y2 e heq
        have hy2 : y2 = (normalize_metals (interpolated_state L y z)
            (interpolated_state L y z).total_metals).1 :=
          (congrArg Prod.fst heq).symm
        have hf := normalize_metals_fst_fields (interpolated_state L y z)
          (interpolated_state L y z).total_metals
        refine ⟨?_, ?_, ?_⟩
        · show y2.abundances_interp = y.abundances_interp
          rw [hy2, hf.1]
          rfl
        · show y2.metallicity_points = y.metallicity_points
          rw [hy2, hf.2.1]
          rfl
        · show y2.has_normalization = y.has_normalization
          rw [hy2, hn]
          exact hf.2.2 (by rw [show (interpolated_state L y
            z).has_normalization = y.has_normalization from rfl]; exact hn)
      · rename_i y2 heq
        have hy2 : y2 = (normalize_metals (interpolated_state L y z)
            (interpolated_state L y z).total_metals).1 :=
          (congrArg Prod.fst heq).symm
        have hf := normalize_metals_fst_fields (interpolated_state L y z)
          (interpolated_state L y z).total_metals
        refine ⟨?_, ?_, ?_⟩
        · show y2.abundances_interp = y.abundances_interp
          rw [hy2, hf.1]
          rfl
        · show y2.metallicity_points = y.metallicity_points
          rw [hy2, hf.2.1]
          rfl
        · show y2.has_normalization = y.has_normalization
          rw [hy2, hn]
          exact hf.2.2 (by rw [show (interpolated_state L y
            z).has_normalization = y.has_normalization from rfl]; exact hn)
    · rw [if_neg hn]
      exact ⟨rfl, rfl, rfl⟩
  · rw [if_pos hz]
    exact ⟨rfl, rfl, rfl⟩

theorem set_metallicity_list_fst_fields (L : ℚ → ℚ) (zs : List ℚ)
    (y : Yields) :
    ((set_metallicity_list L y zs).1).abundances_interp =
        y.abundances_interp ∧
      ((set_metallicity_list L y zs).1).metallicity_points =
        y.metallicity_points ∧
      ((set_metallicity_list L y zs).1).has_normalization =
        y.has_normalization := by
  induction zs generalizing y with
  | nil => exact ⟨rfl, rfl, rfl⟩
  | cons z zs ih =>
    rw [set_metallicity_list]
    rcases hz : set_metallicity L y z with ⟨y1, e⟩
    have h1 := set_metallicity_fst_fields L y z
    rw [hz] at h1
    cases e with
    | some err => exact h1
    | none =>
      obtain ⟨ha, hb, hc⟩ := ih y1
      exact ⟨ha.trans h1.1, hb.trans h1.2.1, hc.trans h1.2.2⟩

theorem create_mass_fractions_loop_fields (L : ℚ → ℚ) :
    ∀ (pts : List ℚ) (y : Yields) (temp : List (String × List ℚ))
      (y1 : Yields) (t1 : List (String × List ℚ)),
      create_mass_fractions_loop L pts y temp = Except.ok (y1, t1) →
      y1.abundances_interp = y.abundances_interp ∧
        y1.metallicity_points = y.metallicity_points ∧
        y1.has_normalization = y.has_normalization ∧
        y1.mass_fractions_log_z = y.mass_fractions_log_z := by
  intro pts
  induction pts with
  | nil =>
    intro y temp y1 t1 h
    rw [create_mass_fractions_loop] at h
    have h2 : (y, temp) = (y1, t1) := by
      have h3 := congrArg (fun e => match e with
        | Except.ok p => p
        | Except.error _ => (y, temp)) h
      simpa using h3
    have h3 : y = y1 := congrArg Prod.fst h2
    subst h3
    exact ⟨rfl, rfl, rfl, rfl⟩
  | cons z pts ih =>
    intro y temp y1 t1 h
    rw [create_mass_fractions_loop] at h
    rcases hz : set_metallicity L y z with ⟨ya, e⟩
    rw [hz] at h
    cases e with
    | some err => exact absurd h (by simp)
    | none =>
      have h' : (if metals_sum ya.abundances = 0 then
          (Except.error PyError.zeroDivisionError :
            Except PyError (Yields × List (String × List ℚ)))
          else create_mass_fractions_loop L pts ya
            (frac_fold (metals_sum ya.abundances) ya.abundances temp)) =
          Except.ok (y1, t1) := h
      by_cases h0 : metals_sum ya.abundances = 0
      · rw [if_pos h0] at h'
        exact absurd h' (by simp)
      · rw [if_neg h0] at h'
        have hf := set_metallicity_fst_fields L y z
        rw [hz] at hf
        have hmf : ya.mass_fractions_log_z = y.mass_fractions_log_z := by
          have := set_metallicity_fst_mass_fractions L y z
          rw [hz] at this
          exact this
        obtain ⟨ha, hb, hc, hd⟩ := ih ya _ y1 t1 h'
        exact ⟨ha.trans hf.1, hb.trans hf.2.1, hc.trans hf.2.2,
          hd.trans hmf⟩

theorem create_mass_fractions_fields (L : ℚ → ℚ) (y : Yields) (y2 : Yields)
    (h : create_mass_fractions L y = Except.ok y2) :
    y2.abundances_interp = y.abundances_interp ∧
      y2.metallicity_points = y.metallicity_points ∧
      y2.has_normalization = y.has_normalization := by
  rw [create_mass_fractions] at h
  rcases hl : create_mass_fractions_loop L y.metallicity_points y [] with e | p
  · rw [hl] at h
    exact absurd h (by simp)
  · rw [hl] at h
    rcases p with ⟨y1, temp⟩
    have hloop := create_mass_fractions_loop_fields L y.metallicity_points y
      [] y1 temp hl
    rcases hs : set_metallicity L { y1 with mass_fractions_log_z := temp.map (fun p => (p.1, interpolation_wrapper L y1.metallicity_points p.2)) } y.metallicity with ⟨yb, e2⟩
    have h2 : (match set_metallicity L { y1 with mass_fractions_log_z := temp.map (fun p => (p.1, interpolation_wrapper L y1.metallicity_points p.2)) } y.metallicity with | (_, some e) => (Except.error e : Except PyError Yields) | (yr, none) => Except.ok yr) = Except.ok y2 := h
    rw [hs] at h2
    cases e2 with
    | some err => exact absurd h2 (by simp)
    | none =>
      have hy2 : yb = y2 := by
        simpa using h2
      have hf := set_metallicity_fst_fields L { y1 with mass_fractions_log_z := temp.map (fun p => (p.1, interpolation_wrapper L y1.metallicity_points p.2)) } y.metallicity
      rw [hs] at hf
      rw [← hy2]
      exact ⟨hf.1.trans hloop.1, hf.2.1.trans hloop.2.1,
        hf.2.2.trans hloop.2.2.1⟩

theorem mkYields_fields (L : ℚ → ℚ) (I : List (String × (ℚ → ℚ)))
    (pts : List ℚ) (y : Yields) (h : mkYields L I pts = Except.ok y) :
    y.abundances_interp = I ∧ y.metallicity_points = pts ∧
      y.has_normalization = false := by
  rw [mkYields] at h
  rcases hs : set_metallicity L
      { abundances := [], abundances_interp := I, metallicity_points := pts,
        has_normalization := false, total_metals := 0, metallicity := 0,
        mass_fractions_log_z := [], attrs := [] } 0 with ⟨y1, e⟩
  rw [hs] at h
  cases e with
  | some err => exact absurd h (by simp)
  | none =>
    have hf := set_metallicity_fst_fields L
      { abundances := [], abundances_interp := I, metallicity_points := pts,
        has_normalization := false, total_metals := 0, metallicity := 0,
        mass_fractions_log_z := [], attrs := [] } 0
    rw [hs] at hf
    have hc := create_mass_fractions_fields L
      { y1 with total_metals := metals_sum y1.abundances } y h
    refine ⟨?_, ?_, ?_⟩
    · rw [hc.1]
      exact hf.1
    · rw [hc.2.1]
      exact hf.2.1
    · rw [hc.2.2]
      exact hf.2.2


theorem exceptOk_eq_ok (e : Except PyError Yields) (h : exceptOk e = true) :
    e = Except.ok (exceptGet e) := by
  cases e with
  | ok y => rfl
  | error err => simp [exceptOk] at h

theorem interp_eval_fold_lookup_notmem (q : ℚ)
    (I : List (String × (ℚ → ℚ))) (d : List (String × ℚ)) (k : String)
    (h : k ∉ dkeys I) : dlookup (interp_eval_fold q I d) k = dlookup d k := by
  induction I generalizing d with
  | nil => rfl
  | cons p I ih =>
    rw [interp_eval_fold, List.foldl_cons]
    have hk : k ∉ dkeys I := fun hm => h (by simp [dkeys] at hm ⊢; exact Or.inr hm)
    have hp : k ≠ p.1 := fun hm => h (by simp [dkeys, hm])
    rw [show (I.foldl (fun d' p => dictSet d' p.1 (p.2 q))
      (dictSet d p.1 (p.2 q))) = interp_eval_fold q I (dictSet d p.1 (p.2 q))
      from rfl]
    rw [ih _ hk, dlookup_dictSet_ne _ _ _ _ hp]

theorem interp_eval_fold_lookup (q : ℚ) (I : List (String × (ℚ → ℚ)))
    (d : List (String × ℚ)) (k : String) (f : ℚ → ℚ)
    (hnd : (dkeys I).Nodup) (hmem : (k, f) ∈ I) :
    dlookup (interp_eval_fold q I d) k = some (f q) := by
  induction I generalizing d with
  | nil => cases hmem
  | cons p I ih =>
    rw [dkeys_cons, List.nodup_cons] at hnd
    rw [interp_eval_fold, List.foldl_cons]
    rw [show (I.foldl (fun d' p => dictSet d' p.1 (p.2 q))
      (dictSet d p.1 (p.2 q))) = interp_eval_fold q I (dictSet d p.1 (p.2 q))
      from rfl]
    rcases List.mem_cons.mp hmem with heq | hmem'
    · have hk : k = p.1 := by rw [← heq]
      have hf : f = p.2 := by rw [← heq]
      subst hk
      rw [interp_eval_fold_lookup_notmem _ _ _ _ hnd.1,
        dlookup_dictSet_self, hf]
    · exact ih (dictSet d p.1 (p.2 q)) hnd.2 hmem'

/-- Claim C8: on the test fixture (two-point metallicity grid `{0, 1}`,
isotope `H_1` tabulated as `{1, 2}`), `set_metallicity(0)` gives abundance
exactly 1, `set_metallicity(1)` exactly 2, and `set_metallicity(1e-3)`
exactly 3/2 (the log floor maps 0 to -6, log10(1) = 0 and log10(1e-3) = -3,
so 1e-3 queries the midpoint of the log grid).  `L` embeds `np.log10`,
pinned at the two queried values. -/
theorem make_test_values (L : ℚ → ℚ) (y y0 y1 ym : Yields)
    (hL1 : L 1 = 0) (hLm : L (1 / 1000) = -3)
    (hmk : mkYields L (make_test L) [0, 1] = Except.ok y)
    (h0 : set_metallicity L y 0 = (y0, none))
    (h1 : set_metallicity L y 1 = (y1, none))
    (hm : set_metallicity L y (1 / 1000) = (ym, none)) :
    dlookup y0.abundances "H_1" = some 1 ∧
      dlookup y1.abundances "H_1" = some 2 ∧
      dlookup ym.abundances "H_1" = some (3 / 2) := by
  obtain ⟨hI, hpts, hnorm⟩ := mkYields_fields L (make_test L) [0, 1] y hmk
  have hmap : ([0, 1] : List ℚ).map (metallicity_log_entry L) = [-6, 0] := by
    simp [metallicity_log_entry, hL1]
  have key : ∀ (z : ℚ) (y' : Yields), set_metallicity L y z = (y', none) →
      dlookup y'.abundances "H_1" =
        some (interp1d [-6, 0] [1, 2] (metallicity_log_entry L z)) := by
    intro z y' h
    obtain ⟨hz, hcase⟩ := set_metallicity_ok L y z y' h
    rcases hcase with ⟨hf, hy'⟩ | ⟨ht, _⟩
    · subst hy'
      have hab : ({ (interpolated_state L y z) with metallicity := z
          }).abundances = sum_elements (interp_eval_fold
          (metallicity_log_entry L z) y.abundances_interp y.abundances) :=
        rfl
      rw [hab, sum_elements_lookup_underscore _ _ (by decide), hI]
      have hkeys : dkeys (make_test L) = ["H_1", "He_2", "Li_3", "Be_4",
          "B_5", "C_6", "N_7", "O_8", "F_9", "Na_10"] := rfl
      have hnd : (dkeys (make_test L)).Nodup := by
        rw [hkeys]
        decide
      have hmem : (("H_1", fun q => interp1d (([0, 1] : List ℚ).map
          (metallicity_log_entry L)) [1, 2] q) :
          String × (ℚ → ℚ)) ∈ make_test L :=
        List.mem_cons_self _ _
      rw [interp_eval_fold_lookup _ _ _ _ _ hnd hmem, hmap]
    · rw [ht] at hnorm
      exact absurd hnorm (by simp)
  have hml0 : metallicity_log_entry L 0 = -6 := by
    rw [metallicity_log_entry, if_pos rfl]
  have hml1 : metallicity_log_entry L 1 = 0 := by
    rw [metallicity_log_entry, if_neg (by norm_num), hL1]
  have hmlm : metallicity_log_entry L (1 / 1000) = -3 := by
    rw [metallicity_log_entry, if_neg (by norm_num), hLm]
  refine ⟨?_, ?_, ?_⟩
  · rw [key 0 y0 h0, hml0]
    norm_num [interp1d, interpPiece]
  · rw [key 1 y1 h1, hml1]
    norm_num [interp1d, interpPiece]
  · rw [key (1 / 1000) ym hm, hmlm]
    norm_num [interp1d, interpPiece]


theorem foldl_sumElStep_filter_underscore (ks : List String)
    (acc : List (String × ℚ)) :
    (ks.foldl sumElStep acc).filter (fun p => hasUnderscore p.1) =
      acc.filter (fun p => hasUnderscore p.1) := by
  induction ks generalizing acc with
  | nil => rfl
  | cons a ks ih =>
    rw [List.foldl_cons, ih, sumElStep]
    by_cases ha : hasUnderscore a = true
    · rw [if_pos ha]
      exact filter_keyPred_dictSet _ _ _ _ (hasUnderscore_symOf a)
    · rw [if_neg ha]

theorem sum_elements_filter_underscore (d : List (String × ℚ)) :
    (sum_elements d).filter (fun p => hasUnderscore p.1) =
      d.filter (fun p => hasUnderscore p.1) :=
  foldl_sumElStep_filter_underscore (dkeys d) d

theorem elemSumSpec_filter_underscore (d d' : List (String × ℚ))
    (h : d.filter (fun p => hasUnderscore p.1) =
      d'.filter (fun p => hasUnderscore p.1)) (e : String) :
    elemSumSpec d e = elemSumSpec d' e := by
  have hc : ∀ (l : List (String × ℚ)),
      l.filter (fun p => hasUnderscore p.1 && (symOf p.1 == e)) =
        (l.filter (fun p => hasUnderscore p.1)).filter
          (fun p => symOf p.1 == e) := by
    intro l
    rw [List.filter_filter]
    apply List.filter_congr
    intro p hp
    exact Bool.and_comm _ _
  rw [elemSumSpec, elemSumSpec, hc d, hc d', h]

theorem mem_dkeys_sum_elements_underscore (d : List (String × ℚ))
    (k : String) (hu : hasUnderscore k = true)
    (h : k ∈ dkeys (sum_elements d)) : k ∈ dkeys d :=
  mem_dkeys_foldl_underscore (dkeys d) d k hu h

theorem sum_elements_elemConsistent (K : List String)
    (hwf : keysWF K = true) (d : List (String × ℚ))
    (hsub : ∀ a ∈ dkeys d, hasUnderscore a = true → a ∈ K) :
    ElemConsistent (sum_elements d) := by
  intro k hk hu
  have hkd : k ∈ dkeys d := mem_dkeys_sum_elements_underscore d k hu hk
  have hlk : dlookup (sum_elements d) (symOf k) =
      some (sum_match d (symOf k)) :=
    foldl_sumElStep_lookup_sym (dkeys d) d k hkd hu
  rw [hlk, sum_match_eq_elemSumSpec K hwf d hsub k (hsub k hkd hu) hu,
    elemSumSpec_filter_underscore d (sum_elements d)
      (sum_elements_filter_underscore d).symm (symOf k)]

theorem mem_underscore_interpolated_state (L : ℚ → ℚ) (y : Yields) (z : ℚ)
    (k : String) (hu : hasUnderscore k = true)
    (hk : k ∈ dkeys (interpolated_state L y z).abundances) :
    k ∈ dkeys y.abundances ∨ k ∈ dkeys y.abundances_interp := by
  have hk2 : k ∈ dkeys (sum_elements (interp_eval_fold
      (metallicity_log_entry L z) y.abundances_interp y.abundances)) := hk
  have hk3 := mem_dkeys_sum_elements_underscore _ k hu hk2
  exact mem_dkeys_interp_eval_fold _ _ _ k hk3

theorem set_metallicity_ok_elemConsistent (L : ℚ → ℚ) (y : Yields) (z : ℚ)
    (y' : Yields) (K : List String) (hwf : keysWF K = true)
    (hsub1 : ∀ k, k ∈ dkeys y.abundances → hasUnderscore k = true → k ∈ K)
    (hsub2 : ∀ k, k ∈ dkeys y.abundances_interp → k ∈ K)
    (h : set_metallicity L y z = (y', none)) :
    ElemConsistent y'.abundances := by
  obtain ⟨-, hbr⟩ := set_metallicity_ok L y z y' h
  have hsubX : ∀ a ∈ dkeys (interp_eval_fold (metallicity_log_entry L z)
      y.abundances_interp y.abundances), hasUnderscore a = true → a ∈ K := by
    intro a ha hau
    rcases mem_dkeys_interp_eval_fold (metallicity_log_entry L z)
      y.abundances_interp y.abundances a ha with h1 | h1
    · exact hsub1 a h1 hau
    · exact hsub2 a h1
  rcases hbr with ⟨-, hy'⟩ | ⟨-, y2, hnm, hy'⟩
  · rw [hy']
    show ElemConsistent (sum_elements (interp_eval_fold
      (metallicity_log_entry L z) y.abundances_interp y.abundances))
    exact sum_elements_elemConsistent K hwf _ hsubX
  · obtain ⟨-, hy2⟩ := normalize_metals_ok _ _ _ hnm
    rw [hy', hy2]
    show ElemConsistent (sum_elements (scaleD
      (y.total_metals / metals_sum (interpolated_state L y z).abundances)
      (interpolated_state L y z).abundances))
    apply sum_elements_elemConsistent K hwf
    intro a ha hau
    rw [dkeys_scaleD] at ha
    have ha2 := mem_dkeys_sum_elements_underscore (interp_eval_fold
      (metallicity_log_entry L z) y.abundances_interp y.abundances) a hau ha
    exact hsubX a ha2 hau

theorem set_metallicity_ok_ukeys (L : ℚ → ℚ) (y : Yields) (z : ℚ)
    (y' : Yields) (h : set_metallicity L y z = (y', none))
    (hU : ∀ k, k ∈ dkeys y.abundances → hasUnderscore k = true →
      k ∈ dkeys y.abundances_interp) :
    ∀ k, k ∈ dkeys y'.abundances → hasUnderscore k = true →
      k ∈ dkeys y'.abundances_interp := by
  have hfi : y'.abundances_interp = y.abundances_interp := by
    have hf := set_metallicity_fst_fields L y z
    rw [h] at hf
    exact hf.1
  intro k hk hu
  rw [hfi]
  obtain ⟨-, hbr⟩ := set_metallicity_ok L y z y' h
  have hIS : ∀ a, a ∈ dkeys (interpolated_state L y z).abundances →
      hasUnderscore a = true → a ∈ dkeys y.abundances_interp := by
    intro a ha hau
    rcases mem_underscore_interpolated_state L y z a hau ha with h1 | h1
    · exact hU a h1 hau
    · exact h1
  rcases hbr with ⟨-, hy'⟩ | ⟨-, y2, hnm, hy'⟩
  · rw [hy'] at hk
    exact hIS k hk hu
  · obtain ⟨-, hy2⟩ := normalize_metals_ok _ _ _ hnm
    rw [hy', hy2] at hk
    have hk2 : k ∈ dkeys (sum_elements (scaleD
        (y.total_metals / metals_sum (interpolated_state L y z).abundances)
        (interpolated_state L y z).abundances)) := hk
    have hk3 := mem_dkeys_sum_elements_underscore _ k hu hk2
    rw [dkeys_scaleD] at hk3
    exact hIS k hk3 hu

theorem create_mass_fractions_loop_ukeys (L : ℚ → ℚ) :
    ∀ (pts : List ℚ) (y : Yields) (temp : List (String × List ℚ))
      (y1 : Yields) (t1 : List (String × List ℚ)),
      create_mass_fractions_loop L pts y temp = Except.ok (y1, t1) →
      (∀ k, k ∈ dkeys y.abundances → hasUnderscore k = true →
        k ∈ dkeys y.abundances_interp) →
      ∀ k, k ∈ dkeys y1.abundances → hasUnderscore k = true →
        k ∈ dkeys y1.abundances_interp := by
  intro pts
  induction pts with
  | nil =>
    intro y temp y1 t1 h hU
    rw [create_mass_fractions_loop] at h
    have h2 : (y, temp) = (y1, t1) := by
      have h3 := congrArg (fun e => match e with
        | Except.ok p => p
        | Except.error _ => (y, temp)) h
      simpa using h3
    have h3 : y = y1 := congrArg Prod.fst h2
    subst h3
    exact hU
  | cons z pts ih =>
    intro y temp y1 t1 h hU
    rw [create_mass_fractions_loop] at h
    rcases hz : set_metallicity L y z with ⟨ya, e⟩
    rw [hz] at h
    cases e with
    | some err => exact absurd h (by simp)
    | none =>
      have h' : (if metals_sum ya.abundances = 0 then
          (Except.error PyError.zeroDivisionError :
            Except PyError (Yields × List (String × List ℚ)))
          else create_mass_fractions_loop L pts ya
            (frac_fold (metals_sum ya.abundances) ya.abundances temp)) =
          Except.ok (y1, t1) := h
      by_cases h0 : metals_sum ya.abundances = 0
      · rw [if_pos h0] at h'
        exact absurd h' (by simp)
      · rw [if_neg h0] at h'
        exact ih ya _ y1 t1 h' (set_metallicity_ok_ukeys L y z ya hz hU)

theorem create_mass_fractions_ok_elemConsistent (L : ℚ → ℚ) (y : Yields)
    (y2 : Yields) (hwf : keysWF (dkeys y.abundances_interp) = true)
    (hU : ∀ k, k ∈ dkeys y.abundances → hasUnderscore k = true →
      k ∈ dkeys y.abundances_interp)
    (h : create_mass_fractions L y = Except.ok y2) :
    ElemConsistent y2.abundances := by
  rw [create_mass_fractions] at h
  rcases hl : create_mass_fractions_loop L y.metallicity_points y [] with e | p
  · rw [hl] at h
    exact absurd h (by simp)
  · rw [hl] at h
    rcases p with ⟨y1, temp⟩
    have hloop := create_mass_fractions_loop_fields L y.metallicity_points y
      [] y1 temp hl
    have hU1 := create_mass_fractions_loop_ukeys L y.metallicity_points y
      [] y1 temp hl hU
    rcases hs : set_metallicity L { y1 with mass_fractions_log_z := temp.map (fun p => (p.1, interpolation_wrapper L y1.metallicity_points p.2)) } y.metallicity with ⟨yb, e2⟩
    have h2 : (match set_metallicity L { y1 with mass_fractions_log_z := temp.map (fun p => (p.1, interpolation_wrapper L y1.metallicity_points p.2)) } y.metallicity with | (_, some e) => (Except.error e : Except PyError Yields) | (yr, none) => Except.ok yr) = Except.ok y2 := h
    rw [hs] at h2
    cases e2 with
    | some err => exact absurd h2 (by simp)
    | none =>
      have hy2 : yb = y2 := by simpa using h2
      rw [← hy2]
      apply set_metallicity_ok_elemConsistent L _ y.metallicity yb
        (dkeys y.abundances_interp) hwf ?_ ?_ hs
      · intro k hk hu
        rw [← hloop.1]
        exact hU1 k hk hu
      · intro k hk
        rw [← hloop.1]
        exact hk

theorem mkYields_ok_elemConsistent (L : ℚ → ℚ) (I : List (String × (ℚ → ℚ)))
    (pts : List ℚ) (y : Yields) (hwf : keysWF (dkeys I) = true)
    (h : mkYields L I pts = Except.ok y) :
    ElemConsistent y.abundances := by
  rw [mkYields] at h
  rcases hs : set_metallicity L
      { abundances := [], abundances_interp := I, metallicity_points := pts,
        has_normalization := false, total_metals := 0, metallicity := 0,
        mass_fractions_log_z := [], attrs := [] } 0 with ⟨y1, e⟩
  rw [hs] at h
  cases e with
  | some err => exact absurd h (by simp)
  | none =>
    have hU0 : ∀ k, k ∈ dkeys ([] : List (String × ℚ)) →
        hasUnderscore k = true → k ∈ dkeys I := by
      intro k hk
      exact absurd hk (by simp)
    have hU1 := set_metallicity_ok_ukeys L _ 0 y1 hs hU0
    have hfi : y1.abundances_interp = I := by
      have hf := set_metallicity_fst_fields L
        { abundances := [], abundances_interp := I, metallicity_points := pts,
          has_normalization := false, total_metals := 0, metallicity := 0,
          mass_fractions_log_z := [], attrs := [] } 0
      rw [hs] at hf
      exact hf.1
    apply create_mass_fractions_ok_elemConsistent L
      { y1 with total_metals := metals_sum y1.abundances } y ?_ ?_ h
    · show keysWF (dkeys y1.abundances_interp) = true
      rw [hfi]
      exact hwf
    · intro k hk hu
      show k ∈ dkeys y1.abundances_interp
      exact hU1 k hk hu

theorem normalize_metals_ok_AttrView (y : Yields) (T : ℚ) (y' : Yields)
    (hnd : (dkeys y.abundances).Nodup)
    (h : normalize_metals y T = (y', none)) : AttrView y' := by
  obtain ⟨-, hy'⟩ := normalize_metals_ok y T y' h
  rw [hy']
  intro k v hk
  have hnd2 : (dkeys (scaleD (T / metals_sum y.abundances)
      y.abundances)).Nodup := by
    rw [dkeys_scaleD]
    exact hnd
  have hnd3 : (dkeys (sum_elements (scaleD (T / metals_sum y.abundances)
      y.abundances))).Nodup := nodup_dkeys_sum_elements _ hnd2
  exact set_members_attrs_lookup _ _ k v hnd3 hk

theorem interpolated_state_nodup (L : ℚ → ℚ) (y : Yields) (z : ℚ)
    (hnd : (dkeys y.abundances).Nodup) :
    (dkeys (interpolated_state L y z).abundances).Nodup := by
  have h1 : (dkeys (interp_eval_fold (metallicity_log_entry L z)
      y.abundances_interp y.abundances)).Nodup :=
    nodup_dkeys_interp_eval_fold _ _ _ hnd
  exact nodup_dkeys_sum_elements _ h1

theorem set_metallicity_ok_AttrView (L : ℚ → ℚ) (y : Yields) (z : ℚ)
    (y' : Yields) (hnd : (dkeys y.abundances).Nodup)
    (h : set_metallicity L y z = (y', none)) : AttrView y' := by
  obtain ⟨-, hbr⟩ := set_metallicity_ok L y z y' h
  have hndIS := interpolated_state_nodup L y z hnd
  rcases hbr with ⟨-, hy'⟩ | ⟨-, y2, hnm, hy'⟩
  · rw [hy']
    intro k v hk
    have h1 : (dkeys (sum_elements (interp_eval_fold
        (metallicity_log_entry L z) y.abundances_interp
        y.abundances))).Nodup := hndIS
    exact set_members_attrs_lookup _ _ k v h1 hk
  · have hAV := normalize_metals_ok_AttrView (interpolated_state L y z)
      y.total_metals y2 hndIS hnm
    rw [hy']
    intro k v hk
    exact hAV k v hk

theorem set_metallicity_ok_nodup (L : ℚ → ℚ) (y : Yields) (z : ℚ)
    (y' : Yields) (hnd : (dkeys y.abundances).Nodup)
    (h : set_metallicity L y z = (y', none)) :
    (dkeys y'.abundances).Nodup := by
  obtain ⟨-, hbr⟩ := set_metallicity_ok L y z y' h
  have hndIS := interpolated_state_nodup L y z hnd
  rcases hbr with ⟨-, hy'⟩ | ⟨-, y2, hnm, hy'⟩
  · rw [hy']
    exact hndIS
  · obtain ⟨-, hy2⟩ := normalize_metals_ok _ _ _ hnm
    rw [hy', hy2]
    have hnd2 : (dkeys (scaleD (y.total_metals /
        metals_sum (interpolated_state L y z).abundances)
        (interpolated_state L y z).abundances)).Nodup := by
      rw [dkeys_scaleD]
      exact hndIS
    exact nodup_dkeys_sum_elements _ hnd2

theorem create_mass_fractions_loop_nodup (L : ℚ → ℚ) :
    ∀ (pts : List ℚ) (y : Yields) (temp : List (String × List ℚ))
      (y1 : Yields) (t1 : List (String × List ℚ)),
      create_mass_fractions_loop L pts y temp = Except.ok (y1, t1) →
      (dkeys y.abundances).Nodup → (dkeys y1.abundances).Nodup := by
  intro pts
  induction pts with
  | nil =>
    intro y temp y1 t1 h hnd
    rw [create_mass_fractions_loop] at h
    have h2 : (y, temp) = (y1, t1) := by
      have h3 := congrArg (fun e => match e with
        | Except.ok p => p
        | Except.error _ => (y, temp)) h
      simpa using h3
    have h3 : y = y1 := congrArg Prod.fst h2
    subst h3
    exact hnd
  | cons z pts ih =>
    intro y temp y1 t1 h hnd
    rw [create_mass_fractions_loop] at h
    rcases hz : set_metallicity L y z with ⟨ya, e⟩
    rw [hz] at h
    cases e with
    | some err => exact absurd h (by simp)
    | none =>
      have h' : (if metals_sum ya.abundances = 0 then
          (Except.error PyError.zeroDivisionError :
            Except PyError (Yields × List (String × List ℚ)))
          else create_mass_fractions_loop L pts ya
            (frac_fold (metals_sum ya.abundances) ya.abundances temp)) =
          Except.ok (y1, t1) := h
      by_cases h0 : metals_sum ya.abundances = 0
      · rw [if_pos h0] at h'
        exact absurd h' (by simp)
      · rw [if_neg h0] at h'
        exact ih ya _ y1 t1 h' (set_metallicity_ok_nodup L y z ya hnd hz)

theorem create_mass_fractions_ok_AttrView (L : ℚ → ℚ) (y : Yields)
    (y2 : Yields) (hnd : (dkeys y.abundances).Nodup)
    (h : create_mass_fractions L y = Except.ok y2) : AttrView y2 := by
  rw [create_mass_fractions] at h
  rcases hl : create_mass_fractions_loop L y.metallicity_points y [] with e | p
  · rw [hl] at h
    exact absurd h (by simp)
  · rw [hl] at h
    rcases p with ⟨y1, temp⟩
    have hnd1 := create_mass_fractions_loop_nodup L y.metallicity_points y
      [] y1 temp hl hnd
    rcases hs : set_metallicity L { y1 with mass_fractions_log_z := temp.map (fun p => (p.1, interpolation_wrapper L y1.metallicity_points p.2)) } y.metallicity with ⟨yb, e2⟩
    have h2 : (match set_metallicity L { y1 with mass_fractions_log_z := temp.map (fun p => (p.1, interpolation_wrapper L y1.metallicity_points p.2)) } y.metallicity with | (_, some e) => (Except.error e : Except PyError Yields) | (yr, none) => Except.ok yr) = Except.ok y2 := h
    rw [hs] at h2
    cases e2 with
    | some err => exact absurd h2 (by simp)
    | none =>
      have hy2 : yb = y2 := by simpa using h2
      rw [← hy2]
      apply set_metallicity_ok_AttrView L _ y.metallicity yb ?_ hs
      show (dkeys y1.abundances).Nodup
      exact hnd1

theorem mkYields_ok_AttrView (L : ℚ → ℚ) (I : List (String × (ℚ → ℚ)))
    (pts : List ℚ) (y : Yields) (h : mkYields L I pts = Except.ok y) :
    AttrView y := by
  rw [mkYields] at h
  rcases hs : set_metallicity L
      { abundances := [], abundances_interp := I, metallicity_points := pts,
        has_normalization := false, total_metals := 0, metallicity := 0,
        mass_fractions_log_z := [], attrs := [] } 0 with ⟨y1, e⟩
  rw [hs] at h
  cases e with
  | some err => exact absurd h (by simp)
  | none =>
    have hnd0 : (dkeys ([] : List (String × ℚ))).Nodup := List.nodup_nil
    have hnd1 := set_metallicity_ok_nodup L _ 0 y1 hnd0 hs
    apply create_mass_fractions_ok_AttrView L
      { y1 with total_metals := metals_sum y1.abundances } y ?_ h
    show (dkeys y1.abundances).Nodup
    exact hnd1

/-- Claim C10: attribute-view consistency.  After construction, after every
successful `set_metallicity` and after every successful `normalize_metals`
(on a state with distinct abundance keys, as every constructed state has),
every entry of the abundance mapping — isotope keys and element-aggregate
keys alike — is exposed as an instance attribute of the same name with the
same value, so the attribute view and the mapping view agree. -/
theorem attribute_view_consistency :
    (∀ (L : ℚ → ℚ) (I : List (String × (ℚ → ℚ))) (pts : List ℚ) (y : Yields),
        mkYields L I pts = Except.ok y → AttrView y) ∧
    (∀ (L : ℚ → ℚ) (y : Yields) (z : ℚ) (y' : Yields),
        (dkeys y.abundances).Nodup →
        set_metallicity L y z = (y', none) → AttrView y') ∧
    (∀ (y : Yields) (T : ℚ) (y' : Yields),
        (dkeys y.abundances).Nodup →
        normalize_metals y T = (y', none) → AttrView y') := by
  refine ⟨?_, ?_, ?_⟩
  · intro L I pts y h
    exact mkYields_ok_AttrView L I pts y h
  · intro L y z y' hnd h
    exact set_metallicity_ok_AttrView L y z y' hnd h
  · intro y T y' hnd h
    exact normalize_metals_ok_AttrView y T y' hnd h

theorem symOf_no_underscore (k : String) (h : hasUnderscore k = false) :
    symOf k = k := by
  have h2 : ¬ '_' ∈ k.toList := by
    rw [← hasUnderscore_iff]
    simp [h]
  have h3 : k.toList.takeWhile (fun c => c != '_') = k.toList := by
    apply List.takeWhile_eq_self_iff.mpr
    intro c hc
    simp only [bne_iff_ne, ne_eq]
    intro he
    rw [he] at hc
    exact h2 hc
  rw [symOf, h3]
  rfl

theorem symOf_symOf (k : String) : symOf (symOf k) = symOf k :=
  symOf_no_underscore (symOf k) (hasUnderscore_symOf k)

theorem fromModel_symOf (I : List String) (a : String)
    (h : fromModel I a) : fromModel I (symOf a) := by
  rcases h with h1 | ⟨k2, hk2, he⟩
  · exact Or.inr ⟨a, h1, rfl⟩
  · refine Or.inr ⟨k2, hk2, ?_⟩
    rw [← he, symOf_symOf]

theorem foldl_sumElStep_fromModel (I : List String) :
    ∀ (ks : List String) (acc : List (String × ℚ)),
      (∀ k ∈ ks, fromModel I k) →
      (∀ k ∈ dkeys acc, fromModel I k) →
      ∀ k ∈ dkeys (ks.foldl sumElStep acc), fromModel I k := by
  intro ks
  induction ks with
  | nil =>
    intro acc hks hacc
    exact hacc
  | cons a ks ih =>
    intro acc hks hacc k hk
    rw [List.foldl_cons] at hk
    refine ih _ (fun b hb => hks b (List.mem_cons_of_mem a hb)) ?_ k hk
    intro b hb
    rcases mem_dkeys_sumElStep acc a b hb with h1 | h1
    · exact hacc b h1
    · rw [h1]
      exact fromModel_symOf I a (hks a (List.mem_cons_self a ks))

theorem sum_elements_fromModel (I : List String) (d : List (String × ℚ))
    (h : ∀ k ∈ dkeys d, fromModel I k) :
    ∀ k ∈ dkeys (sum_elements d), fromModel I k :=
  foldl_sumElStep_fromModel I (dkeys d) d h h

theorem mem_dkeys_set_members_attrs (a d : List (String × ℚ)) (k : String)
    (h : k ∈ dkeys (set_members_attrs a d)) : k ∈ dkeys a ∨ k ∈ dkeys d := by
  induction d generalizing a with
  | nil => exact Or.inl h
  | cons p d ih =>
    rw [set_members_attrs, List.foldl_cons] at h
    have h2 : k ∈ dkeys (set_members_attrs (dictSet a p.1 p.2) d) := h
    rcases ih (dictSet a p.1 p.2) h2 with h1 | h1
    · rcases (mem_dkeys_dictSet a p.1 k p.2).mp h1 with h3 | h3
      · exact Or.inl h3
      · refine Or.inr ?_
        rw [dkeys_cons, h3]
        exact List.mem_cons_self _ _
    · refine Or.inr ?_
      rw [dkeys_cons]
      exact List.mem_cons_of_mem _ h1

theorem mem_dkeys_dAppend (d : List (String × List ℚ)) (k : String)
    (v : ℚ) (a : String) (h : a ∈ dkeys (dAppend d k v)) :
    a ∈ dkeys d ∨ a = k := by
  rw [dAppend] at h
  by_cases hm : dmem d k
  · rw [if_pos hm] at h
    refine Or.inl ?_
    have he : dkeys (d.map (fun p => if p.1 = k then (p.1, p.2 ++ [v])
        else p)) = dkeys d := by
      rw [dkeys, dkeys, List.map_map]
      apply List.map_congr_left
      intro p hp
      by_cases hp1 : p.1 = k <;> simp [hp1]
    rw [he] at h
    exact h
  · rw [if_neg hm, dkeys_append] at h
    rcases List.mem_append.mp h with h1 | h1
    · exact Or.inl h1
    · refine Or.inr ?_
      simpa using h1

theorem mem_dkeys_frac_fold (tot : ℚ) :
    ∀ (ab : List (String × ℚ)) (temp : List (String × List ℚ)) (a : String),
      a ∈ dkeys (frac_fold tot ab temp) →
      a ∈ dkeys temp ∨ a ∈ dkeys ab := by
  intro ab
  induction ab with
  | nil =>
    intro temp a h
    exact Or.inl h
  | cons p ab ih =>
    intro temp a h
    have h2 : a ∈ dkeys (frac_fold tot ab (dAppend temp p.1 (p.2 / tot))) := h
    rcases ih _ a h2 with h1 | h1
    · rcases mem_dkeys_dAppend _ _ _ a h1 with h3 | h3
      · exact Or.inl h3
      · refine Or.inr ?_
        rw [dkeys_cons, h3]
        exact List.mem_cons_self _ _
    · refine Or.inr ?_
      rw [dkeys_cons]
      exact List.mem_cons_of_mem _ h1

theorem dkeys_map_interp (L : ℚ → ℚ) (pts : List ℚ)
    (t : List (String × List ℚ)) :
    dkeys (t.map (fun p => (p.1, interpolation_wrapper L pts p.2))) =
      dkeys t := by
  rw [dkeys, dkeys, List.map_map]
  apply List.map_congr_left
  intro p hp
  rfl

theorem normalize_metals_ok_ModelKeys (y : Yields) (T : ℚ) (y' : Yields)
    (hM : ModelKeys y) (h : normalize_metals y T = (y', none)) :
    ModelKeys y' := by
  obtain ⟨-, hy'⟩ := normalize_metals_ok y T y' h
  rw [hy']
  refine ⟨?_, ?_, ?_⟩
  · intro a ha
    have ha2 : a ∈ dkeys (sum_elements (scaleD (T / metals_sum y.abundances)
        y.abundances)) := ha
    show fromModel (dkeys y.abundances_interp) a
    refine sum_elements_fromModel _ _ ?_ a ha2
    intro b hb
    rw [dkeys_scaleD] at hb
    exact hM.1 b hb
  · intro a ha
    have ha2 : a ∈ dkeys (set_members_attrs y.attrs (sum_elements
        (scaleD (T / metals_sum y.abundances) y.abundances))) := ha
    show fromModel (dkeys y.abundances_interp) a
    rcases mem_dkeys_set_members_attrs _ _ a ha2 with h1 | h1
    · exact hM.2.1 a h1
    · refine sum_elements_fromModel _ _ ?_ a h1
      intro b hb
      rw [dkeys_scaleD] at hb
      exact hM.1 b hb
  · intro a ha
    show fromModel (dkeys y.abundances_interp) a
    exact hM.2.2 a ha

theorem set_metallicity_ok_ModelKeys (L : ℚ → ℚ) (y : Yields) (z : ℚ)
    (y' : Yields) (hM : ModelKeys y)
    (h : set_metallicity L y z = (y', none)) : ModelKeys y' := by
  obtain ⟨-, hbr⟩ := set_metallicity_ok L y z y' h
  have hX : ∀ b ∈ dkeys (interp_eval_fold (metallicity_log_entry L z)
      y.abundances_interp y.abundances),
      fromModel (dkeys y.abundances_interp) b := by
    intro b hb
    rcases mem_dkeys_interp_eval_fold _ _ _ b hb with h1 | h1
    · exact hM.1 b h1
    · exact Or.inl h1
  have hISM : ModelKeys (interpolated_state L y z) := by
    refine ⟨?_, ?_, ?_⟩
    · intro a ha
      show fromModel (dkeys y.abundances_interp) a
      exact sum_elements_fromModel _ _ hX a ha
    · intro a ha
      show fromModel (dkeys y.abundances_interp) a
      have ha2 : a ∈ dkeys (set_members_attrs y.attrs (sum_elements
          (interp_eval_fold (metallicity_log_entry L z) y.abundances_interp
            y.abundances))) := ha
      rcases mem_dkeys_set_members_attrs _ _ a ha2 with h1 | h1
      · exact hM.2.1 a h1
      · exact sum_elements_fromModel _ _ hX a h1
    · intro a ha
      show fromModel (dkeys y.abundances_interp) a
      exact hM.2.2 a ha
  rcases hbr with ⟨-, hy'⟩ | ⟨-, y2, hnm, hy'⟩
  · rw [hy']
    exact hISM
  · have hM2 := normalize_metals_ok_ModelKeys (interpolated_state L y z)
      y.total_metals y2 hISM hnm
    rw [hy']
    exact hM2

theorem create_mass_fractions_loop_ModelKeys (L : ℚ → ℚ) :
    ∀ (pts : List ℚ) (y : Yields) (temp : List (String × List ℚ))
      (y1 : Yields) (t1 : List (String × List ℚ)),
      create_mass_fractions_loop L pts y temp = Except.ok (y1, t1) →
      ModelKeys y →
      (∀ k ∈ dkeys temp, fromModel (dkeys y.abundances_interp) k) →
      ModelKeys y1 ∧
        ∀ k ∈ dkeys t1, fromModel (dkeys y1.abundances_interp) k := by
  intro pts
  induction pts with
  | nil =>
    intro y temp y1 t1 h hM hT
    rw [create_mass_fractions_loop] at h
    have h2 : (y, temp) = (y1, t1) := by
      have h3 := congrArg (fun e => match e with
        | Except.ok p => p
        | Except.error _ => (y, temp)) h
      simpa using h3
    have h3 : y = y1 := congrArg Prod.fst h2
    have h4 : temp = t1 := congrArg Prod.snd h2
    subst h3
    subst h4
    exact ⟨hM, hT⟩
  | cons z pts ih =>
    intro y temp y1 t1 h hM hT
    rw [create_mass_fractions_loop] at h
    rcases hz : set_metallicity L y z with ⟨ya, e⟩
    rw [hz] at h
    cases e with
    | some err => exact absurd h (by simp)
    | none =>
      have h' : (if metals_sum ya.abundances = 0 then
          (Except.error PyError.zeroDivisionError :
            Except PyError (Yields × List (String × List ℚ)))
          else create_mass_fractions_loop L pts ya
            (frac_fold (metals_sum ya.abundances) ya.abundances temp)) =
          Except.ok (y1, t1) := h
      by_cases h0 : metals_sum ya.abundances = 0
      · rw [if_pos h0] at h'
        exact absurd h' (by simp)
      · rw [if_neg h0] at h'
        have hMa := set_metallicity_ok_ModelKeys L y z ya hM hz
        have hfi : ya.abundances_interp = y.abundances_interp := by
          have hf := set_metallicity_fst_fields L y z
          rw [hz] at hf
          exact hf.1
        refine ih ya _ y1 t1 h' hMa ?_
        intro k hk
        rw [hfi]
        rcases mem_dkeys_frac_fold (metals_sum ya.abundances) ya.abundances
          temp k hk with h1 | h1
        · exact hT k h1
        · have := hMa.1 k h1
          rw [hfi] at this
          exact this

theorem create_mass_fractions_ok_ModelKeys (L : ℚ → ℚ) (y : Yields)
    (y2 : Yields) (hM : ModelKeys y)
    (h : create_mass_fractions L y = Except.ok y2) : ModelKeys y2 := by
  rw [create_mass_fractions] at h
  rcases hl : create_mass_fractions_loop L y.metallicity_points y [] with e | p
  · rw [hl] at h
    exact absurd h (by simp)
  · rw [hl] at h
    rcases p with ⟨y1, temp⟩
    obtain ⟨hM1, hT1⟩ := create_mass_fractions_loop_ModelKeys L
      y.metallicity_points y [] y1 temp hl hM
      (by intro k hk; exact absurd hk (by simp))
    rcases hs : set_metallicity L { y1 with mass_fractions_log_z := temp.map (fun p => (p.1, interpolation_wrapper L y1.metallicity_points p.2)) } y.metallicity with ⟨yb, e2⟩
    have h2 : (match set_metallicity L { y1 with mass_fractions_log_z := temp.map (fun p => (p.1, interpolation_wrapper L y1.metallicity_points p.2)) } y.metallicity with | (_, some e) => (Except.error e : Except PyError Yields) | (yr, none) => Except.ok yr) = Except.ok y2 := h
    rw [hs] at h2
    cases e2 with
    | some err => exact absurd h2 (by simp)
    | none =>
      have hy2 : yb = y2 := by simpa using h2
      rw [← hy2]
      apply set_metallicity_ok_ModelKeys L _ y.metallicity yb ?_ hs
      refine ⟨?_, ?_, ?_⟩
      · intro k hk
        show fromModel (dkeys y1.abundances_interp) k
        exact hM1.1 k hk
      · intro k hk
        show fromModel (dkeys y1.abundances_interp) k
        exact hM1.2.1 k hk
      · intro k hk
        show fromModel (dkeys y1.abundances_interp) k
        have hk2 : k ∈ dkeys (temp.map (fun p =>
            (p.1, interpolation_wrapper L y1.metallicity_points p.2))) := hk
        rw [dkeys_map_interp] at hk2
        exact hT1 k hk2

theorem mkYields_ok_ModelKeys (L : ℚ → ℚ) (I : List (String × (ℚ → ℚ)))
    (pts : List ℚ) (y : Yields) (h : mkYields L I pts = Except.ok y) :
    ModelKeys y := by
  rw [mkYields] at h
  rcases hs : set_metallicity L
      { abundances := [], abundances_interp := I, metallicity_points := pts,
        has_normalization := false, total_metals := 0, metallicity := 0,
        mass_fractions_log_z := [], attrs := [] } 0 with ⟨y1, e⟩
  rw [hs] at h
  cases e with
  | some err => exact absurd h (by simp)
  | none =>
    have hM0 : ModelKeys
        { abundances := [], abundances_interp := I, metallicity_points := pts,
          has_normalization := false, total_metals := 0, metallicity := 0,
          mass_fractions_log_z := [], attrs := [] } := by
      refine ⟨?_, ?_, ?_⟩
      · intro a ha
        exact absurd (show a ∈ dkeys ([] : List (String × ℚ)) from ha)
          (by simp)
      · intro a ha
        exact absurd (show a ∈ dkeys ([] : List (String × ℚ)) from ha)
          (by simp)
      · intro a ha
        exact absurd (show a ∈ dkeys ([] : List (String × (ℚ → ℚ))) from ha)
          (by simp)
    have hM1 := set_metallicity_ok_ModelKeys L _ 0 y1 hM0 hs
    apply create_mass_fractions_ok_ModelKeys L
      { y1 with total_metals := metals_sum y1.abundances } y ?_ h
    exact hM1

/-- Claim C2: after construction, after a successful `set_metallicity`, and
after a successful `normalize_metals`, the abundance mapping is
element-aggregate consistent: for every isotope key `E_A` present, the entry
stored under the bare element symbol `E` equals the sum of the entries of
all isotopes of `E`.  The key sets involved are required to be well formed
(`keysWF`): every isotope key has exactly one underscore and no element
symbol is a proper suffix of another, which rules out accidental substring
matches in `_sum_elements`. -/
theorem element_aggregate_consistency :
    (∀ (L : ℚ → ℚ) (I : List (String × (ℚ → ℚ))) (pts : List ℚ) (y : Yields),
        keysWF (dkeys I) = true → mkYields L I pts = Except.ok y →
        ElemConsistent y.abundances) ∧
    (∀ (L : ℚ → ℚ) (y : Yields) (z : ℚ) (y' : Yields),
        keysWF (dkeys y.abundances ++ dkeys y.abundances_interp) = true →
        set_metallicity L y z = (y', none) → ElemConsistent y'.abundances) ∧
    (∀ (y : Yields) (T : ℚ) (y' : Yields),
        keysWF (dkeys y.abundances) = true →
        normalize_metals y T = (y', none) → ElemConsistent y'.abundances) := by
  refine ⟨?_, ?_, ?_⟩
  · intro L I pts y hwf h
    exact mkYields_ok_elemConsistent L I pts y hwf h
  · intro L y z y' hwf h
    apply set_metallicity_ok_elemConsistent L y z y'
      (dkeys y.abundances ++ dkeys y.abundances_interp) hwf ?_ ?_ h
    · intro k hk hu
      exact List.mem_append_left _ hk
    · intro k hk
      exact List.mem_append_right _ hk
  · intro y T y' hwf h
    obtain ⟨-, hy'⟩ := normalize_metals_ok y T y' h
    rw [hy']
    show ElemConsistent (sum_elements (scaleD
      (T / metals_sum y.abundances) y.abundances))
    apply sum_elements_elemConsistent (dkeys y.abundances) hwf
    intro a ha hau
    rw [dkeys_scaleD] at ha
    exact ha


/-- Claim C6: unknown-key access fails with a distinct not-found signal.
For a constructed model and a key the model never produces (neither an
isotope key of the loader's interpolator dictionary nor the element symbol
of one, e.g. `U_135` on the test model), attribute-style abundance lookup
raises `AttributeError` and `mass_fraction` raises `KeyError` at every
query metallicity; both errors are distinct from the metallicity
range-validation `ValueError`, and neither access ever returns a success
value (in particular not a silent zero). -/
theorem unknown_key_not_found (L : ℚ → ℚ) (I : List (String × (ℚ → ℚ)))
    (pts : List ℚ) (y : Yields) (k : String)
    (hmk : mkYields L I pts = Except.ok y)
    (hk1 : k ∉ dkeys I) (hk2 : ∀ k2 ∈ dkeys I, symOf k2 ≠ k) :
    getattr_abundance y k = Except.error (PyError.attributeError k) ∧
      (∀ z, mass_fraction L y k z = Except.error (PyError.keyError k)) ∧
      (∀ m, PyError.attributeError k ≠ PyError.valueError m) ∧
      (∀ m, PyError.keyError k ≠ PyError.valueError m) ∧
      (∀ v, getattr_abundance y k ≠ Except.ok v) ∧
      (∀ z v, mass_fraction L y k z ≠ Except.ok v) := by
  have hM := mkYields_ok_ModelKeys L I pts y hmk
  have hfi : y.abundances_interp = I := (mkYields_fields L I pts y hmk).1
  have hnot : ∀ (ks : List String),
      (∀ a ∈ ks, fromModel (dkeys y.abundances_interp) a) → k ∉ ks := by
    intro ks hks hkmem
    rcases hks k hkmem with h1 | ⟨k2, hk2m, he⟩
    · rw [hfi] at h1
      exact hk1 h1
    · rw [hfi] at hk2m
      exact hk2 k2 hk2m he
  have hattr : dlookup y.attrs k = none :=
    (dlookup_eq_none_iff_not_mem _ _).mpr (hnot _ hM.2.1)
  have hmf : dlookup y.mass_fractions_log_z k = none :=
    (dlookup_eq_none_iff_not_mem _ _).mpr (hnot _ hM.2.2)
  refine ⟨?_, ?_, ?_, ?_, ?_, ?_⟩
  · simp only [getattr_abundance, hattr]
  · intro z
    simp only [mass_fraction, hmf]
  · intro m h
    cases h
  · intro m h
    cases h
  · intro v
    simp [getattr_abundance, hattr]
  · intro z v
    simp [mass_fraction, hmf]


section ConcreteEvaluation

/- Batteries marks the `Rat` arithmetic operations `[irreducible]`; concrete
evaluation of the model states by `decide`/`rfl` needs them unfolded. -/
set_option allowUnsafeReducibility true
attribute [local semireducible] Rat.add Rat.mul Rat.sub Rat.inv
set_option maxHeartbeats 4000000
set_option maxRecDepth 8000

theorem normalization_sticky_witness :
    normalize_metals test_model 7 = (test_model_norm, none) ∧
      set_metallicity_list log10_test test_model_norm [1, 1 / 2] =
        (test_model_norm_seq, none) ∧
      set_metallicity log10_test test_model_norm_seq 0 =
        (test_model_norm_final, none) ∧
      metals_sum test_model_norm_final.abundances = 7 := by
  have e1 : (normalize_metals test_model 7).2 = none := by decide
  have e2 : (set_metallicity_list log10_test test_model_norm [1, 1 / 2]).2 =
      none := by decide
  have e3 : (set_metallicity log10_test test_model_norm_seq 0).2 = none := by
    decide
  have h1 : normalize_metals test_model 7 = (test_model_norm, none) := by
    rw [← e1]
    rfl
  have h2 : set_metallicity_list log10_test test_model_norm [1, 1 / 2] =
      (test_model_norm_seq, none) := by
    rw [← e2]
    rfl
  have h3 : set_metallicity log10_test test_model_norm_seq 0 =
      (test_model_norm_final, none) := by
    rw [← e3]
    rfl
  refine ⟨h1, h2, h3, ?_⟩
  exact normalization_sticky log10_test test_model test_model_norm
    test_model_norm_seq test_model_norm_final 7 [1, 1 / 2] 0
    (by decide) (by decide) (by decide) h1 h2 h3

theorem set_metallicity_validation_witness :
    ¬((0 : ℚ) ≤ 2 ∧ (2 : ℚ) ≤ 1) ∧
      (set_metallicity log10_test test_model 2).1 = test_model ∧
      (∃ m, (set_metallicity log10_test test_model 2).2 =
        some (PyError.valueError m)) := by
  have hz : ¬((0 : ℚ) ≤ 2 ∧ (2 : ℚ) ≤ 1) := by decide
  exact ⟨hz, (set_metallicity_validation log10_test test_model 2).2 hz,
    (set_metallicity_validation log10_test test_model 2).1.mpr hz⟩

theorem interpolation_wrapper_spec_witness :
    interpolation_wrapper log10_test [0, 1] [1, 2] (-10) = 1 ∧
      interpolation_wrapper log10_test [0, 1] [1, 2] 5 = 2 ∧
      interpolation_wrapper log10_test [0, 1] [1, 2] (-3) = 3 / 2 := by
  have hmono : (([-6, 0] : List ℚ).Chain' (· < ·)) :=
    List.chain'_cons.mpr ⟨by decide, List.chain'_singleton 0⟩
  refine ⟨?_, ?_, ?_⟩
  · have h1 := (interpolation_wrapper_spec log10_test [0, 1] [1, 2] [-6, 0]
      (-10) (by decide) (by decide) (by decide) hmono).1
      (by decide) (by decide) (by decide)
    rw [h1]
    rfl
  · have h2 := (interpolation_wrapper_spec log10_test [0, 1] [1, 2] [-6, 0]
      5 (by decide) (by decide) (by decide) hmono).2.1
      (by decide) (by decide)
    rw [h2]
    rfl
  · have h3 := (interpolation_wrapper_spec log10_test [0, 1] [1, 2] [-6, 0]
      (-3) (by decide) (by decide) (by decide) hmono).2.2
      0 (by decide) (by decide) (by decide) (by decide)
    rw [h3]
    decide

theorem metallicity_log_spec_witness :
    (metallicity_log log10_test (NpInput.arr [0, 1 / 1000])).length = 2 ∧
      (metallicity_log log10_test (NpInput.arr [0, 1 / 1000])).get
        ⟨0, by decide⟩ = -6 ∧
      (metallicity_log log10_test (NpInput.arr [0, 1 / 1000])).get
        ⟨1, by decide⟩ = -3 := by
  have h := metallicity_log_spec log10_test (NpInput.arr [0, 1 / 1000])
  refine ⟨h.1, ?_, ?_⟩
  · rw [h.2.2 0 (by decide) (by decide)]
    decide
  · rw [h.2.2 1 (by decide) (by decide)]
    decide

theorem parse_nomoto_individual_element_spec_witness :
    parse_nomoto_individual_element "28Si" = some ("Si_28") ∧
      parse_nomoto_individual_element "9Be" = some ("Be_9") := by
  constructor
  · exact (parse_nomoto_individual_element_spec).2.2 ['2', '8'] ['S', 'i']
      (by decide) (by decide) (by decide) (by decide) (by decide) (by decide)
  · exact (parse_nomoto_individual_element_spec).2.2 ['9'] ['B', 'e']
      (by decide) (by decide) (by decide) (by decide) (by decide) (by decide)

theorem make_test_values_witness :
    mkYields log10_test (make_test log10_test) [0, 1] =
        Except.ok test_model ∧
      dlookup test_model_z0.abundances "H_1" = some 1 ∧
      dlookup test_model_z1.abundances "H_1" = some 2 ∧
      dlookup test_model_zmid.abundances "H_1" = some (3 / 2) := by
  have hmk : mkYields log10_test (make_test log10_test) [0, 1] =
      Except.ok test_model :=
    exceptOk_eq_ok _ (by decide)
  have e0 : (set_metallicity log10_test test_model 0).2 = none := by decide
  have e1 : (set_metallicity log10_test test_model 1).2 = none := by decide
  have em : (set_metallicity log10_test test_model (1 / 1000)).2 = none := by
    decide
  have h0 : set_metallicity log10_test test_model 0 = (test_model_z0, none) := by
    rw [← e0]
    rfl
  have h1 : set_metallicity log10_test test_model 1 = (test_model_z1, none) := by
    rw [← e1]
    rfl
  have hm : set_metallicity log10_test test_model (1 / 1000) =
      (test_model_zmid, none) := by
    rw [← em]
    rfl
  exact ⟨hmk, make_test_values log10_test test_model test_model_z0
    test_model_z1 test_model_zmid (by decide) (by decide) hmk h0 h1 hm⟩

theorem element_aggregate_consistency_witness :
    ElemConsistent test_model.abundances ∧
      dlookup test_model.abundances "H" =
        some (elemSumSpec test_model.abundances "H") := by
  have hwf : keysWF (dkeys (make_test log10_test)) = true := by
    have hkeys : dkeys (make_test log10_test) = ["H_1", "He_2", "Li_3",
      "Be_4", "B_5", "C_6", "N_7", "O_8", "F_9", "Na_10"] := rfl
    rw [hkeys]
    decide
  have hmk : mkYields log10_test (make_test log10_test) [0, 1] =
      Except.ok test_model :=
    exceptOk_eq_ok _ (by decide)
  have hec := element_aggregate_consistency.1 log10_test
    (make_test log10_test) [0, 1] test_model hwf hmk
  refine ⟨hec, ?_⟩
  have h1 := hec "H_1" (by decide) (by decide)
  have hsym : symOf "H_1" = "H" := by decide
  rw [hsym] at h1
  exact h1

theorem attribute_view_consistency_witness :
    AttrView test_model ∧ dlookup test_model.attrs "H_1" = some 1 := by
  have hmk : mkYields log10_test (make_test log10_test) [0, 1] =
      Except.ok test_model :=
    exceptOk_eq_ok _ (by decide)
  have hav := attribute_view_consistency.1 log10_test
    (make_test log10_test) [0, 1] test_model hmk
  exact ⟨hav, hav "H_1" 1 (by decide)⟩

theorem unknown_key_not_found_witness :
    getattr_abundance test_model "U_135" =
        Except.error (PyError.attributeError "U_135") ∧
      mass_fraction log10_test test_model "U_135" (1 / 2) =
        Except.error (PyError.keyError "U_135") := by
  have hmk : mkYields log10_test (make_test log10_test) [0, 1] =
      Except.ok test_model :=
    exceptOk_eq_ok _ (by decide)
  have hkeys : dkeys (make_test log10_test) = ["H_1", "He_2", "Li_3",
    "Be_4", "B_5", "C_6", "N_7", "O_8", "F_9", "Na_10"] := rfl
  have hk1 : "U_135" ∉ dkeys (make_test log10_test) := by
    rw [hkeys]
    decide
  have hk2 : ∀ k2 ∈ dkeys (make_test log10_test), symOf k2 ≠ "U_135" := by
    rw [hkeys]
    decide
  have h := unknown_key_not_found log10_test (make_test log10_test) [0, 1]
    test_model "U_135" hmk hk1 hk2
  exact ⟨h.1, h.2.1 (1 / 2)⟩

end ConcreteEvaluation
